import Mathlib

/-!
Verification development for the SQL Server query anonymizer (`app.py`).

The core of the program is embedded shallowly:

* text is modelled as `List Char` (`Str`); the program's Python `str`
  operations are translated to executable list functions;
* `NameMapper` (the identifier registry) is a structure with per-role
  association lists mirroring Python dicts (insertion order preserved,
  first-match lookup, assignment replacing in place / appending);
* the regular expressions of the source (`SEGMENT_RE`, `USE_DB_RE`, and the
  substitution patterns built by `_build_replacements_forward/_reverse`) are
  each embedded as a dedicated scanning function with the same leftmost-match
  and greedy/backtracking semantics that the Python `re` engine gives those
  fixed pattern shapes.  Character classes (`\w`, `\s`, `[A-Za-z0-9_.$]`) and
  `re.IGNORECASE` are modelled over ASCII, which covers every identifier and
  input appearing in the claims;
* the external collaborators are modelled at their interfaces: the
  `parse_one` function of `sqlglot` is an oracle parameter `parse : Str → Option SqlTree`, where an
  `SqlTree` is the pre-order linearization of the table/column registrations
  that `_extract_mapping._visit` performs on the parsed tree, and
  `json.loads` output is a `Json` value.

Recursive text scanners take an explicit fuel argument (callers pass
`length + 1`, which is always sufficient since every step consumes at least
one character); this keeps every definition structurally recursive and hence
evaluable by `decide`/`rfl`.
-/

set_option linter.unusedVariables false

abbrev Str := List Char

/-- Identifier roles of the registry: the keys `"database"`, `"schema"`,
`"table"`, `"column"` of the source's dicts. -/
inductive Kind
  | database
  | schema
  | table
  | column
deriving DecidableEq

/-- The single-quote character (spelled numerically). -/
def squote : Char := Char.ofNat 39

/-- The double-quote character. -/
def dquote : Char := Char.ofNat 34

/-- ASCII lower-casing on code points, as `re.IGNORECASE` folds ASCII. -/
def lowerN (n : Nat) : Nat := if 65 ≤ n ∧ n ≤ 90 then n + 32 else n

/-- Case-insensitive character comparison (ASCII model of `re.IGNORECASE`). -/
def charCI (a b : Char) : Bool := lowerN a.toNat == lowerN b.toNat

/-- Case-sensitive character comparison (patterns compiled without flags). -/
def charEq (a b : Char) : Bool := a == b

/-- Two texts that agree up to ASCII letter case. -/
def ciEq : Str → Str → Bool
  | [], [] => true
  | a :: as, b :: bs => charCI a b && ciEq as bs
  | _, _ => false

/-- The class `[\w$]` used by the word-boundary lookarounds of the
substitution patterns (ASCII `\w` plus the dollar sign). -/
def wordDollar (c : Char) : Bool :=
  decide ((48 ≤ c.toNat ∧ c.toNat ≤ 57) ∨ (65 ≤ c.toNat ∧ c.toNat ≤ 90) ∨
    (97 ≤ c.toNat ∧ c.toNat ≤ 122) ∨ c.toNat = 95 ∨ c.toNat = 36)

/-- The class `\s` of the `re` module (ASCII whitespace). -/
def isWs (c : Char) : Bool :=
  decide (c.toNat = 32 ∨ c.toNat = 9 ∨ c.toNat = 10 ∨ c.toNat = 13 ∨
    c.toNat = 11 ∨ c.toNat = 12)

/-- The class `[A-Za-z0-9_.$]` of the bare-identifier branch of `USE_DB_RE`. -/
def plainCh (c : Char) : Bool :=
  decide ((48 ≤ c.toNat ∧ c.toNat ≤ 57) ∨ (65 ≤ c.toNat ∧ c.toNat ≤ 90) ∨
    (97 ≤ c.toNat ∧ c.toNat ≤ 122) ∨ c.toNat = 95 ∨ c.toNat = 46 ∨ c.toNat = 36)

/-- Decimal digit to character. -/
def digitCh : Nat → Char
  | 0 => '0' | 1 => '1' | 2 => '2' | 3 => '3' | 4 => '4'
  | 5 => '5' | 6 => '6' | 7 => '7' | 8 => '8' | 9 => '9'
  | _ => '*'

/-- Character to decimal digit value. -/
def digitVal (c : Char) : Nat := c.toNat - 48

/-- Big-endian decimal digits of `n` (empty for `0`); fuelled so that the
kernel can evaluate it.  Any fuel `≥ n` is enough. -/
def natStrAux : Nat → Nat → Str
  | 0, _ => []
  | fuel + 1, n => if n = 0 then [] else natStrAux fuel (n / 10) ++ [digitCh (n % 10)]

/-- The decimal rendering of a counter, as the f-string `f"{counter}"`
produces it. -/
def natStr (n : Nat) : Str := if n = 0 then ['0'] else natStrAux (n + 1) n

/-- Value of a digit string (left fold, base 10). -/
def strVal (s : Str) : Nat := s.foldl (fun acc c => acc * 10 + digitVal c) 0

/-- Dict lookup on an association list: first (unique) matching key. -/
def dlookup : List (Str × Str) → Str → Option Str
  | [], _ => none
  | (a, b) :: tl, k => if a = k then some b else dlookup tl k

/-- Dict assignment `d[k] = v` on an association list: replace in place when
the key exists, append otherwise (Python dicts keep insertion order). -/
def dinsert : List (Str × Str) → Str → Str → List (Str × Str)
  | [], k, v => [(k, v)]
  | (a, b) :: tl, k, v => if a = k then (a, v) :: tl else (a, b) :: dinsert tl k v

/-- Model of `{v: k_ for k_, v in d.items()}`: build the reverse dict by inserting the
swapped pairs in iteration order (later duplicates overwrite in place). -/
def buildInverse (d : List (Str × Str)) : List (Str × Str) :=
  d.foldl (fun acc p => dinsert acc p.2 p.1) []

/-- Model of `DEFAULT_PREFIXES` of the source. -/
def DEFAULT_PREFIXES : Kind → Str
  | .database => "DB_".data
  | .schema => "SC_".data
  | .table => "T_".data
  | .column => "C_".data

/-- The identifier registry: forward and reverse mappings per role, with the
per-role counters and prefixes (`NameMapper` of the source). -/
structure NameMapper where
  prefixes : Kind → Str
  mapping : Kind → List (Str × Str)
  inverse : Kind → List (Str × Str)
  counters : Kind → Nat

/-- Model of `NameMapper.__init__`: `mapping or {...}` / `prefixes or DEFAULT_PREFIXES`
receive `none` when the argument was `None` or falsy (the empty dict); the
reverse maps and the counters (`len(d) + 1`) are derived from the forward
mapping. -/
def NameMapper.init (mapping : Option (Kind → List (Str × Str)))
    (prefixes : Option (Kind → Str)) : NameMapper :=
  let m := mapping.getD (fun _ => [])
  { prefixes := prefixes.getD DEFAULT_PREFIXES
    mapping := m
    inverse := fun k => buildInverse (m k)
    counters := fun k => (m k).length + 1 }

/-- Model of `NameMapper._gen`: synthesize `f"{prefix}{counter}"` and bump the
counter. -/
def NameMapper.gen (nm : NameMapper) (kind : Kind) : NameMapper × Str :=
  let name := nm.prefixes kind ++ natStr (nm.counters kind)
  ({ nm with counters := fun k => if k = kind then nm.counters kind + 1 else nm.counters k },
   name)

/-- Model of `NameMapper.map` (resolve-or-create): empty originals pass through, known
originals return the stored pseudonym, fresh originals get a generated
pseudonym recorded in both directions. -/
def NameMapper.map (nm : NameMapper) (kind : Kind) (original : Str) :
    NameMapper × Str :=
  if original = [] then (nm, original)
  else
    match dlookup (nm.mapping kind) original with
    | some als => (nm, als)
    | none =>
      let g := nm.gen kind
      ({ g.1 with
          mapping := fun k =>
            if k = kind then dinsert (nm.mapping kind) original g.2 else nm.mapping k
          inverse := fun k =>
            if k = kind then dinsert (nm.inverse kind) g.2 original else nm.inverse k },
       g.2)

/-- Model of `NameMapper.unmap` (reverse lookup): `self.inverse.get(kind, {}).get(alias, alias)`. -/
def NameMapper.unmap (nm : NameMapper) (kind : Kind) (als : Str) : Str :=
  (dlookup (nm.inverse kind) als).getD als

/-! ### The persisted registry snapshot (`json` collaborator modelled as values) -/

/-- A parsed JSON document, as `json.loads` hands it to `NameMapper.from_json`. -/
inductive Json
  | null
  | jbool (b : Bool)
  | jnum (n : Int)
  | jstr (s : Str)
  | jarr (l : List Json)
  | jobj (l : List (Str × Json))

/-- Key lookup in a JSON object (`dict.get`).  JSON objects with duplicate
keys are not modelled (Python keeps the last duplicate; no claim involves
them). -/
def jlookup : List (Str × Json) → Str → Option Json
  | [], _ => none
  | (a, b) :: tl, k => if a = k then some b else jlookup tl k

/-- One role's dict of a snapshot, as `str → str` pairs.  A non-string value
is rejected here, where Python would accept it at load time and misbehave
later; no claim involves non-string values. -/
def decodeRolePairs : List (Str × Json) → Except String (List (Str × Str))
  | [] => .ok []
  | (k, Json.jstr v) :: tl =>
    match decodeRolePairs tl with
    | .ok rest => .ok ((k, v) :: rest)
    | .error e => .error e
  | _ => .error "mapping value is not a string"

/-- A role key of the `mapping` field: an absent role decodes to the empty
dict (Python keeps the key absent and would only fail later, on
`self.mapping[kind]`, for a role the claims never touch in that state). -/
def decodeRole : Option Json → Except String (List (Str × Str))
  | none => .ok []
  | some (Json.jobj l) => decodeRolePairs l
  | some _ => .error "role is not an object"

/-- The optional `mapping` field.  `none` stands for every Python value on
which `mapping or {...}` falls back to the default (absent key, `null`, and
the falsy `{}`, `[]`, `0`, `false`); a truthy non-object makes the
constructor's `.items()` comprehension raise, modelled as an error. -/
def decodeMappingField : Option Json → Except String (Option (Kind → List (Str × Str)))
  | none => .ok none
  | some Json.null => .ok none
  | some (Json.jbool false) => .ok none
  | some (Json.jnum 0) => .ok none
  | some (Json.jarr []) => .ok none
  | some (Json.jobj []) => .ok none
  | some (Json.jobj l) => do
    let db ← decodeRole (jlookup l "database".data)
    let sc ← decodeRole (jlookup l "schema".data)
    let tb ← decodeRole (jlookup l "table".data)
    let co ← decodeRole (jlookup l "column".data)
    .ok (some (fun k => match k with
      | .database => db | .schema => sc | .table => tb | .column => co))
  | some _ => .error "mapping is not an object"

/-- The optional `prefixes` field, with the same falsiness rule.  A role
absent from a present dict falls back to its default prefix (Python keeps
the raw dict and would only fail later, inside `_gen`); a non-string or
non-object value is rejected at load, where Python would defer the failure.
No claim involves those malformed shapes. -/
def decodePrefixField : Option Json → Except String (Option (Kind → Str))
  | none => .ok none
  | some Json.null => .ok none
  | some (Json.jbool false) => .ok none
  | some (Json.jnum 0) => .ok none
  | some (Json.jarr []) => .ok none
  | some (Json.jobj []) => .ok none
  | some (Json.jobj l) =>
    let get1 := fun (k : Kind) (name : Str) =>
      match jlookup l name with
      | some (Json.jstr s) => Except.ok s
      | none => Except.ok (DEFAULT_PREFIXES k)
      | some _ => Except.error "prefix is not a string"
    do
      let db ← get1 .database "database".data
      let sc ← get1 .schema "schema".data
      let tb ← get1 .table "table".data
      let co ← get1 .column "column".data
      .ok (some (fun k => match k with
        | .database => db | .schema => sc | .table => tb | .column => co))
  | some _ => .error "prefixes is not an object"

/-- Model of `NameMapper.from_json`: read the two optional top-level fields of the
snapshot and hand them to the constructor. -/
def NameMapper.fromJson (j : Json) : Except String NameMapper :=
  match j with
  | Json.jobj kvs => do
    let mopt ← decodeMappingField (jlookup kvs "mapping".data)
    let popt ← decodePrefixField (jlookup kvs "prefixes".data)
    .ok (NameMapper.init mopt popt)
  | _ => .error "document is not an object"

/-- Total accessor for a successfully imported snapshot. -/
def fromJsonD (j : Json) : NameMapper :=
  match NameMapper.fromJson j with
  | .ok nm => nm
  | .error _ => NameMapper.init none none

/-- An importable snapshot in the exporter's own format whose stored
pseudonym `DB_2` collides with the next pseudonym the generator will emit
(the database counter starts at `1 + 1 = 2`). -/
def collidingSnapshot : Json :=
  Json.jobj [("mapping".data, Json.jobj
    [("database".data, Json.jobj [("X".data, Json.jstr "DB_2".data)]),
     ("schema".data, Json.jobj []),
     ("table".data, Json.jobj []),
     ("column".data, Json.jobj [])])]

/-- The pseudonyms currently recorded for a role. -/
def aliasesOf (nm : NameMapper) (k : Kind) : List Str := (nm.mapping k).map Prod.snd

/-- Health of a registry state for the round-trip law: counters are positive,
no pseudonym the generator may still emit is already present in its role, and
every forward entry has its inverse entry. -/
def RegInv (nm : NameMapper) : Prop :=
  (∀ k, 1 ≤ nm.counters k)
  ∧ (∀ k n, nm.counters k ≤ n → (nm.prefixes k ++ natStr n) ∉ aliasesOf nm k)
  ∧ (∀ k o a, (o, a) ∈ nm.mapping k → dlookup (nm.inverse k) a = some o)

/-- A whole later lifetime of resolve-or-create calls, in order. -/
def runCalls (calls : List (Kind × Str)) (nm : NameMapper) : NameMapper :=
  calls.foldl (fun acc c => (acc.map c.1 c.2).1) nm

/-! ### The segmenter (`SEGMENT_RE` and `_scan_code_segments`) -/

/-- The classification of a text span. -/
inductive Tag
  | code
  | comment
  | strseg
deriving DecidableEq

/-- Tail of a string literal after its opening quote `q`: the regex body
that consumes doubled-quote pairs or non-quote characters under a greedy
star and then the closing quote, with the star backtracking one
doubled-quote pair when the closing quote is otherwise missing.  Returns the
consumed text (ending in the closing quote) and the rest. -/
def strTail (q : Char) : Str → Option (Str × Str)
  | [] => none
  | [a] => if a = q then some ([a], []) else none
  | a :: b :: rest =>
    if a = q then
      if b = q then
        match strTail q rest with
        | some (c, r) => some (a :: b :: c, r)
        | none => some ([a], b :: rest)
      else some ([a], b :: rest)
    else
      match strTail q (b :: rest) with
      | some (c, r) => some (a :: c, r)
      | none => none

/-- Tail of a block comment after `/*`: the lazy `.*?\*/` — everything up to
and including the first `*/`, failing when there is none. -/
def blockTail : Str → Option (Str × Str)
  | [] => none
  | [_] => none
  | a :: b :: rest =>
    if a = '*' ∧ b = '/' then some ([a, b], rest)
    else
      match blockTail (b :: rest) with
      | some (c, r) => some (a :: c, r)
      | none => none

/-- Tail of a line comment after `--`: the regex `[^\n]*\n?` (the newline is
consumed when present, and the comment runs to end of input otherwise). -/
def lineSplit (s : Str) : Str × Str :=
  let body := s.takeWhile (fun c => !(c == '\n'))
  let rest := s.dropWhile (fun c => !(c == '\n'))
  match rest with
  | c :: r => if c = '\n' then (body ++ [c], r) else (body, rest)
  | [] => (body, [])

/-- One match attempt of `SEGMENT_RE` at the current position.  The four
alternatives start with distinct characters (dash-dash, slash-star, single
quote, double quote), so first-character dispatch is exactly the ordered
alternation of the regex. -/
def tryAt (s : Str) : Option (Tag × Str × Str) :=
  match s with
  | [] => none
  | c :: cs =>
    if c = '-' then
      match cs with
      | c2 :: cs2 =>
        if c2 = '-' then
          let p := lineSplit cs2
          some (.comment, c :: c2 :: p.1, p.2)
        else none
      | [] => none
    else if c = '/' then
      match cs with
      | c2 :: cs2 =>
        if c2 = '*' then
          match blockTail cs2 with
          | some (b, r) => some (.comment, c :: c2 :: b, r)
          | none => none
        else none
      | [] => none
    else if c = squote ∨ c = dquote then
      match strTail c cs with
      | some (b, r) => some (.strseg, c :: b, r)
      | none => none
    else none

/-- The next match of `SEGMENT_RE.finditer`: the gap of unmatched code before the
leftmost position where some alternative matches, together with the match and
the remaining input. -/
def findProtected : Str → Option (Str × Tag × Str × Str)
  | [] => none
  | c :: cs =>
    match tryAt (c :: cs) with
    | some (tag, seg, rest) => some ([], tag, seg, rest)
    | none =>
      match findProtected cs with
      | some (g, tag, seg, rest) => some (c :: g, tag, seg, rest)
      | none => none

/-- The segment stream of the input: code gaps (possibly empty, exactly as
`_scan_code_segments` yields them) interleaved with the protected matches,
with the trailing code suffix last. -/
def segGo : Nat → Str → List (Tag × Str)
  | 0, s => [(.code, s)]
  | fuel + 1, s =>
    match findProtected s with
    | none => [(.code, s)]
    | some (g, tag, seg, rest) => (.code, g) :: (tag, seg) :: segGo fuel rest

/-- Segmentation of a whole input (`length + 1` fuel always suffices: every
protected match is non-empty). -/
def segments_of (s : Str) : List (Tag × Str) := segGo (s.length + 1) s

/-! ### Substitution rules (`_build_replacements_forward` / `_reverse`) -/

/-- A compiled substitution pattern built for one `(original, alias)` pair:
either the bracket-tolerant form `\[\s*pat\s*\]` (replaced by `[rep]`) or the
bare word-bounded form `(?<![\w$])pat(?![\w$])` (replaced by `rep`), compiled
with (`ci = true`) or without (`ci = false`) `re.IGNORECASE`. -/
inductive Rule
  | bracket (ci : Bool) (pat rep : Str)
  | bare (ci : Bool) (pat rep : Str)

/-- The character comparison a rule's compilation flag selects. -/
def chCmp (ci : Bool) : Char → Char → Bool :=
  fun a b => if ci then charCI a b else charEq a b

/-- The pattern's literal text. -/
def rulePat : Rule → Str
  | .bracket _ pat _ => pat
  | .bare _ pat _ => pat

/-- The rule's case flag. -/
def ruleCI : Rule → Bool
  | .bracket ci _ _ => ci
  | .bare ci _ _ => ci

/-- Literal-text match at the head of the input under a character
comparison: returns the consumed text (in its original spelling) and the
rest. -/
def matchLit (cmp : Char → Char → Bool) : Str → Str → Option (Str × Str)
  | [], s => some ([], s)
  | _ :: _, [] => none
  | p :: ps, c :: cs =>
    if cmp p c then
      match matchLit cmp ps cs with
      | some (m, r) => some (c :: m, r)
      | none => none
    else none

/-- The negative lookbehind `(?<![\w$])`: satisfied at the start of the text
or after a non-word character. -/
def boundaryOk : Option Char → Bool
  | none => true
  | some c => !wordDollar c

/-- The negative lookahead `(?![\w$])`. -/
def nextOk : Str → Bool
  | [] => true
  | c :: _ => !wordDollar c

/-- Model of `pattern.sub` for the bare form: left-to-right scan over the original
text, replacing each word-bounded occurrence and resuming after it. -/
def bareGo (cmp : Char → Char → Bool) (pat rep : Str) : Nat → Option Char → Str → Str
  | _, _, [] => []
  | 0, _, s => s
  | fuel + 1, prev, c :: cs =>
    if boundaryOk prev then
      match matchLit cmp pat (c :: cs) with
      | some (m, r) =>
        if nextOk r then rep ++ bareGo cmp pat rep fuel m.getLast? r
        else c :: bareGo cmp pat rep fuel (some c) cs
      | none => c :: bareGo cmp pat rep fuel (some c) cs
    else c :: bareGo cmp pat rep fuel (some c) cs

/-- Bare-form substitution over a whole text.  An empty pattern (possible
only for an empty original, which `map` never records but an imported
snapshot could contain) is modelled as a no-op; Python's zero-width match
would instead insert the replacement at word boundaries. -/
def subBare (cmp : Char → Char → Bool) (pat rep : Str) (s : Str) : Str :=
  if pat = [] then s else bareGo cmp pat rep (s.length + 1) none s

/-- One attempt of `\s*pat\s*\]` just after `[`, with exactly `k` characters
of the greedy leading `\s*`. -/
def bracketTailAt (cmp : Char → Char → Bool) (pat : Str) (cs : Str) (k : Nat) :
    Option Str :=
  match matchLit cmp pat (cs.drop k) with
  | some (_, r1) =>
    match r1.dropWhile isWs with
    | c :: r3 => if c = ']' then some r3 else none
    | [] => none
  | none => none

/-- Greedy `\s*` with backtracking: try the longest whitespace run first. -/
def bracketAux (cmp : Char → Char → Bool) (pat : Str) (cs : Str) : Nat → Option Str
  | 0 => bracketTailAt cmp pat cs 0
  | k + 1 =>
    match bracketTailAt cmp pat cs (k + 1) with
    | some r => some r
    | none => bracketAux cmp pat cs k

/-- Complete a bracket-form match after an opening `[`: the rest of the text
after the closing `]`, when the content matches `\s*pat\s*`. -/
def bracketTry (cmp : Char → Char → Bool) (pat : Str) (cs : Str) : Option Str :=
  bracketAux cmp pat cs ((cs.takeWhile isWs).length)

/-- Model of `pattern.sub` for the bracket form, replacing each match by `[rep]`. -/
def bracketGo (cmp : Char → Char → Bool) (pat rep : Str) : Nat → Str → Str
  | _, [] => []
  | 0, s => s
  | fuel + 1, c :: cs =>
    if c = '[' then
      match bracketTry cmp pat cs with
      | some r => '[' :: (rep ++ ']' :: bracketGo cmp pat rep fuel r)
      | none => c :: bracketGo cmp pat rep fuel cs
    else c :: bracketGo cmp pat rep fuel cs

/-- Bracket-form substitution over a whole text. -/
def subBracket (cmp : Char → Char → Bool) (pat rep : Str) (s : Str) : Str :=
  bracketGo cmp pat rep (s.length + 1) s

/-- Apply one rule to a text (`pattern.sub(rep, text)`). -/
def applyRule (t : Str) : Rule → Str
  | .bracket ci pat rep => subBracket (chCmp ci) pat rep t
  | .bare ci pat rep => subBare (chCmp ci) pat rep t

/-- Model of `_apply_all`: apply every rule in sequence to the evolving text. -/
def apply_all (t : Str) (repls : List Rule) : Str := repls.foldl applyRule t

/-- The two rules (`[original] → [alias]`, then bare `original → alias`)
contributed by each dict pair, in dict iteration order. -/
def rulesOfPairs (mk : Str → Str → List Rule) : List (Str × Str) → List Rule
  | [] => []
  | (o, a) :: tl => mk o a ++ rulesOfPairs mk tl

/-- Model of `_build_replacements_forward`: case-insensitive rules original→alias, in
role order database, schema, table, column. -/
def _build_replacements_forward (nm : NameMapper) : List Rule :=
  rulesOfPairs (fun o a => [Rule.bracket true o a, Rule.bare true o a]) (nm.mapping .database)
  ++ rulesOfPairs (fun o a => [Rule.bracket true o a, Rule.bare true o a]) (nm.mapping .schema)
  ++ rulesOfPairs (fun o a => [Rule.bracket true o a, Rule.bare true o a]) (nm.mapping .table)
  ++ rulesOfPairs (fun o a => [Rule.bracket true o a, Rule.bare true o a]) (nm.mapping .column)

/-- Model of `_build_replacements_reverse`: case-sensitive rules alias→original. -/
def _build_replacements_reverse (nm : NameMapper) : List Rule :=
  rulesOfPairs (fun a o => [Rule.bracket false a o, Rule.bare false a o]) (nm.inverse .database)
  ++ rulesOfPairs (fun a o => [Rule.bracket false a o, Rule.bare false a o]) (nm.inverse .schema)
  ++ rulesOfPairs (fun a o => [Rule.bracket false a o, Rule.bare false a o]) (nm.inverse .table)
  ++ rulesOfPairs (fun a o => [Rule.bracket false a o, Rule.bare false a o]) (nm.inverse .column)

/-- Model of `_is_string`: the segment text both starts and ends with the same quote
character. -/
def _is_string (seg : Str) : Bool :=
  decide ((seg.head? = some squote ∧ seg.getLast? = some squote)
    ∨ (seg.head? = some dquote ∧ seg.getLast? = some dquote))

/-- Model of `_is_comment` (the complementary test of the source). -/
def _is_comment (seg : Str) : Bool :=
  decide (seg.head? = some '-' ∨ seg.head? = some '/')

/-- Model of `_apply_replacements_to_code_and_comments`, one protected match at a
time: code gaps and comment matches are rewritten, string matches are
appended verbatim. -/
def applyRepGo (repls : List Rule) : Nat → Str → Str
  | 0, s => s
  | fuel + 1, s =>
    match findProtected s with
    | none => apply_all s repls
    | some (g, _, seg, rest) =>
      apply_all g repls ++ (if _is_string seg then seg else apply_all seg repls)
        ++ applyRepGo repls fuel rest

/-- Model of `_apply_replacements_to_code_and_comments` over a whole input. -/
def _apply_replacements_to_code_and_comments (sql : Str) (repls : List Rule) : Str :=
  applyRepGo repls (sql.length + 1) sql

/-- The protected matches of the input, in order (the segments `SEGMENT_RE`
finds, with their tags). -/
def protGo : Nat → Str → List (Tag × Str)
  | 0, _ => []
  | fuel + 1, s =>
    match findProtected s with
    | none => []
    | some (_, tag, seg, rest) => (tag, seg) :: protGo fuel rest

/-- All protected matches of an input. -/
def protectedMatches (s : Str) : List (Tag × Str) := protGo (s.length + 1) s

/-- Occurrence predicate: `p` occurs contiguously inside `t`. -/
def InfixOf (p t : Str) : Prop := ∃ l r, l ++ p ++ r = t

/-! ### The `USE` scanner (`USE_DB_RE`) -/

/-- Python `str.strip()` (whitespace from both ends). -/
def pyStrip (s : Str) : Str := ((s.dropWhile isWs).reverse.dropWhile isWs).reverse

/-- Model of `USE_DB_RE` match attempt at the current position: `\bUSE` (the word
boundary judged from the previous character), then `\s+`, then either the
bracket alternative `\[\s*([^\]\r\n;]+)\s*\]` or the bare alternative
`([A-Za-z0-9_.$]+)`.  Returns the captured name (before stripping), the
consumed text and the rest.  When the bracket alternative fails its closing
checks the bare alternative cannot apply (its class excludes `[`), matching
the regex's ordered alternation. -/
def matchUseAt (prev : Option Char) (s : Str) : Option (Str × Str × Str) :=
  if boundaryOk prev then
    match matchLit charCI "use".data s with
    | some (m1, r0) =>
      let ws := r0.takeWhile isWs
      if ws = [] then none
      else
        match r0.drop ws.length with
        | c :: r2 =>
          if c = '[' then
            let content := r2.takeWhile
              (fun ch => !(ch == ']' || ch == '\r' || ch == '\n' || ch == ';'))
            match r2.drop content.length with
            | c2 :: r3 =>
              if c2 = ']' ∧ content ≠ [] then
                some (content, m1 ++ ws ++ c :: (content ++ [c2]), r3)
              else none
            | [] => none
          else
            let run := (c :: r2).takeWhile plainCh
            if run = [] then none
            else some (run, m1 ++ ws ++ run, (c :: r2).drop run.length)
        | [] => none
    | none => none
  else none

/-- Model of `USE_DB_RE.finditer`: the stripped captured names, in order. -/
def useGo : Nat → Option Char → Str → List Str
  | _, _, [] => []
  | 0, _, _ => []
  | fuel + 1, prev, c :: cs =>
    match matchUseAt prev (c :: cs) with
    | some (content, consumed, rest) => pyStrip content :: useGo fuel consumed.getLast? rest
    | none => useGo fuel (some c) cs

/-- All (stripped) `USE` target names of one code segment. -/
def useNamesIn (code : Str) : List Str := useGo (code.length + 1) none code

/-- Model of `USE_DB_RE.sub("", code)`: remove every match. -/
def useSubGo : Nat → Option Char → Str → Str
  | _, _, [] => []
  | 0, _, s => s
  | fuel + 1, prev, c :: cs =>
    match matchUseAt prev (c :: cs) with
    | some (_, consumed, rest) => useSubGo fuel consumed.getLast? rest
    | none => c :: useSubGo fuel (some c) cs

/-- Removal of all `USE` statements from one code segment. -/
def useSub (code : Str) : Str := useSubGo (code.length + 1) none code

/-- Model of `_scan_code_segments`: the code gaps of the segment stream (protected
matches skipped), including empty gaps and the trailing suffix. -/
def _scan_code_segments (sql : Str) : List Str :=
  (segments_of sql).filterMap (fun p => if p.1 = Tag.code then some p.2 else none)

/-- Model of `_map_use_databases`: register every non-empty `USE` target under role
`database`, in scan order. -/
def _map_use_databases (sql : Str) (nm : NameMapper) : NameMapper :=
  (((_scan_code_segments sql).map useNamesIn).flatten).foldl
    (fun acc name => if name = [] then acc else (acc.map .database name).1) nm

/-- Model of `_strip_use_for_parse`: remove `USE` statements from code gaps only,
keeping protected segments verbatim. -/
def stripGo : Nat → Str → Str
  | 0, s => s
  | fuel + 1, s =>
    match findProtected s with
    | none => useSub s
    | some (g, _, seg, rest) => useSub g ++ seg ++ stripGo fuel rest

/-- Model of `_strip_use_for_parse` over a whole input. -/
def _strip_use_for_parse (sql : Str) : Str := stripGo (sql.length + 1) sql

/-! ### The structural extractor and the pipeline -/

/-- One registration step that `_extract_mapping._visit` performs: a
`Table` node (catalog, schema and bare table name, empty when absent) or a
`Column` node (bare name).  A parsed sqlglot tree is modelled by the
pre-order sequence of these steps. -/
inductive SqlAction
  | tableA (catalog db name : Str)
  | columnA (name : Str)

/-- The walk of a parsed tree, as its sequence of registrations. -/
abbrev SqlTree := List SqlAction

/-- Registrations of one node: `if node.catalog: map("database", ...)` etc.;
an absent part is the empty string, which `map` ignores. -/
def visitAction (nm : NameMapper) : SqlAction → NameMapper
  | .tableA catalog db name =>
    let nm1 := if catalog ≠ [] then (nm.map .database catalog).1 else nm
    let nm2 := if db ≠ [] then (nm1.map .schema db).1 else nm1
    if name ≠ [] then (nm2.map .table name).1 else nm2
  | .columnA name => if name ≠ [] then (nm.map .column name).1 else nm

/-- Model of `_visit` over the whole tree. -/
def visitTree (t : SqlTree) (nm : NameMapper) : NameMapper := t.foldl visitAction nm

/-- Model of `_extract_mapping`: register `USE` targets, then hand the stripped text
to the external parser (`parse` models `sqlglot.parse_one` plus the tree it
yields: `none` is a raised parse error); on failure return silently, else
walk the tree. -/
def _extract_mapping (parse : Str → Option SqlTree) (sql : Str) (nm : NameMapper) :
    NameMapper :=
  let nm1 := _map_use_databases sql nm
  match parse (_strip_use_for_parse sql) with
  | none => nm1
  | some tree => visitTree tree nm1

/-- Model of `anonymize_sql`: extract (mutating the registry), then rewrite forward. -/
def anonymize_sql (parse : Str → Option SqlTree) (sql : Str) (nm : NameMapper) :
    Str × NameMapper :=
  let nm2 := _extract_mapping parse sql nm
  (_apply_replacements_to_code_and_comments sql (_build_replacements_forward nm2), nm2)

/-- Model of `deanonymize_sql`: rewrite backward with the registry as it is. -/
def deanonymize_sql (sql : Str) (nm : NameMapper) : Str :=
  _apply_replacements_to_code_and_comments sql (_build_replacements_reverse nm)

/-! ### Arithmetic facts about generated counters -/

theorem digitVal_digitCh : ∀ d < 10, digitVal (digitCh d) = d := by decide

theorem strVal_append_digit (l : Str) (c : Char) :
    strVal (l ++ [c]) = strVal l * 10 + digitVal c := by
  simp [strVal, List.foldl_append]

theorem natStrAux_val : ∀ fuel n, n ≤ fuel → strVal (natStrAux fuel n) = n := by
  intro fuel
  induction fuel with
  | zero =>
    intro n hn
    interval_cases n
    simp [natStrAux, strVal]
  | succ f ih =>
    intro n hn
    by_cases h0 : n = 0
    · simp [natStrAux, h0, strVal]
    · have hdiv : n / 10 ≤ f := by
        have := Nat.div_lt_self (Nat.pos_of_ne_zero h0) (by omega : 1 < 10)
        omega
      simp only [natStrAux, h0, if_false]
      rw [strVal_append_digit, ih _ hdiv, digitVal_digitCh _ (Nat.mod_lt _ (by omega))]
      omega

theorem natStr_inj_pos {a b : Nat} (ha : 1 ≤ a) (hb : 1 ≤ b)
    (h : natStr a = natStr b) : a = b := by
  unfold natStr at h
  rw [if_neg (by omega), if_neg (by omega)] at h
  have := congrArg strVal h
  rwa [natStrAux_val _ _ (by omega), natStrAux_val _ _ (by omega)] at this

/-! ### Association-list (Python dict) facts -/

theorem dlookup_mem : ∀ {l : List (Str × Str)} {k v : Str},
    dlookup l k = some v → (k, v) ∈ l := by
  intro l
  induction l with
  | nil => intro k v h; simp [dlookup] at h
  | cons p tl ih =>
    intro k v h
    obtain ⟨a, b⟩ := p
    by_cases hk : a = k
    · subst hk
      simp [dlookup] at h
      simp [h]
    · simp [dlookup, hk] at h
      exact List.mem_cons_of_mem _ (ih h)

theorem mem_dlookup : ∀ {l : List (Str × Str)} {k v : Str},
    (k, v) ∈ l → ∃ b, dlookup l k = some b := by
  intro l
  induction l with
  | nil => intro k v h; simp at h
  | cons p tl ih =>
    intro k v h
    obtain ⟨a, b⟩ := p
    by_cases hk : a = k
    · exact ⟨b, by simp [dlookup, hk]⟩
    · rcases List.mem_cons.mp h with heq | hmem
      · exact absurd (congrArg Prod.fst heq).symm hk
      · simpa [dlookup, hk] using ih hmem

theorem dlookup_dinsert_self (l : List (Str × Str)) (k v : Str) :
    dlookup (dinsert l k v) k = some v := by
  induction l with
  | nil => simp [dinsert, dlookup]
  | cons p tl ih =>
    obtain ⟨a, b⟩ := p
    by_cases hk : a = k
    · simp [dinsert, hk, dlookup]
    · simp [dinsert, hk, dlookup, ih]

theorem dlookup_dinsert_ne {l : List (Str × Str)} {k k' v : Str} (h : k' ≠ k) :
    dlookup (dinsert l k v) k' = dlookup l k' := by
  have h2 : ¬k = k' := fun hh => h hh.symm
  induction l with
  | nil => simp [dinsert, dlookup, h2]
  | cons p tl ih =>
    obtain ⟨a, b⟩ := p
    by_cases hk : a = k
    · subst hk
      simp [dinsert, dlookup, h2]
    · simp [dinsert, hk, dlookup, ih]

theorem dinsert_of_lookup_none : ∀ {l : List (Str × Str)} {k : Str} (v : Str),
    dlookup l k = none → dinsert l k v = l ++ [(k, v)] := by
  intro l
  induction l with
  | nil => intro k v h; simp [dinsert]
  | cons p tl ih =>
    intro k v h
    obtain ⟨a, b⟩ := p
    by_cases hk : a = k
    · simp [dlookup, hk] at h
    · simp [dlookup, hk] at h
      simp [dinsert, hk, ih v h]

theorem dlookup_append_left {l l2 : List (Str × Str)} {k v : Str}
    (h : dlookup l k = some v) : dlookup (l ++ l2) k = some v := by
  induction l with
  | nil => simp [dlookup] at h
  | cons p tl ih =>
    obtain ⟨a, b⟩ := p
    by_cases hk : a = k
    · simp [dlookup, hk] at h ⊢
      exact h
    · simp [dlookup, hk] at h ⊢
      exact ih h

/-! ### Unfolding lemmas for resolve-or-create -/

theorem map_empty (nm : NameMapper) (k : Kind) : nm.map k [] = (nm, []) := by
  simp [NameMapper.map]

theorem map_found {nm : NameMapper} {k : Kind} {x a : Str} (hx : x ≠ [])
    (h : dlookup (nm.mapping k) x = some a) : nm.map k x = (nm, a) := by
  simp [NameMapper.map, hx, h]

theorem map_fresh {nm : NameMapper} {k : Kind} {x : Str} (hx : x ≠ [])
    (h : dlookup (nm.mapping k) x = none) :
    nm.map k x =
      ({ prefixes := nm.prefixes
         mapping := fun k' =>
           if k' = k then dinsert (nm.mapping k) x (nm.prefixes k ++ natStr (nm.counters k))
           else nm.mapping k'
         inverse := fun k' =>
           if k' = k then dinsert (nm.inverse k) (nm.prefixes k ++ natStr (nm.counters k)) x
           else nm.inverse k'
         counters := fun k' => if k' = k then nm.counters k + 1 else nm.counters k' },
       nm.prefixes k ++ natStr (nm.counters k)) := by
  simp [NameMapper.map, hx, h, NameMapper.gen]

theorem init_none_mapping (k : Kind) : (NameMapper.init none none).mapping k = [] := by
  simp [NameMapper.init]

theorem init_none_counters (k : Kind) : (NameMapper.init none none).counters k = 1 := by
  simp [NameMapper.init]

/-- C3: `NameMapper.map` (resolve-or-create) behaves as specified: counters
start at one plus the number of pre-existing entries of the role; an empty
original passes through without touching the registry; a known original
returns its stored pseudonym and leaves the registry unchanged; a fresh
original returns `prefix ++ counter`, bumps the counter, appends the forward
entry and records the inverse entry. -/
theorem C3_resolve_or_create :
    (∀ mopt popt k, (NameMapper.init mopt popt).counters k
        = ((NameMapper.init mopt popt).mapping k).length + 1)
    ∧ (∀ nm k, NameMapper.map nm k [] = (nm, []))
    ∧ (∀ nm k x a, x ≠ [] → dlookup (nm.mapping k) x = some a →
        NameMapper.map nm k x = (nm, a))
    ∧ (∀ nm k x, x ≠ [] → dlookup (nm.mapping k) x = none →
        (NameMapper.map nm k x).2 = nm.prefixes k ++ natStr (nm.counters k)
        ∧ ((NameMapper.map nm k x).1).counters k = nm.counters k + 1
        ∧ ((NameMapper.map nm k x).1).mapping k
            = nm.mapping k ++ [(x, nm.prefixes k ++ natStr (nm.counters k))]
        ∧ dlookup (((NameMapper.map nm k x).1).inverse k)
            (nm.prefixes k ++ natStr (nm.counters k)) = some x) := by
  refine ⟨fun mopt popt k => by simp [NameMapper.init], map_empty,
    fun nm k x a hx h => map_found hx h, fun nm k x hx h => ?_⟩
  rw [map_fresh hx h]
  refine ⟨rfl, by simp, ?_, ?_⟩
  · simpa using dinsert_of_lookup_none _ h
  · simpa using dlookup_dinsert_self (nm.inverse k) _ x

/-- Witness for C3 at concrete inputs: a fresh registry maps `Person` in role
`table`; mapping the empty original and re-mapping `Person` behave as the
theorem states. -/
theorem C3_resolve_or_create_witness :
    (((NameMapper.init none none).map .table "Person".data).2
        = (NameMapper.init none none).prefixes .table
          ++ natStr ((NameMapper.init none none).counters .table))
    ∧ (NameMapper.map (NameMapper.init none none) .table [] = (NameMapper.init none none, []))
    ∧ (NameMapper.map ((NameMapper.init none none).map .table "Person".data).1 .table
          "Person".data
        = (((NameMapper.init none none).map .table "Person".data).1, "T_1".data)) :=
  ⟨(C3_resolve_or_create.2.2.2 _ .table "Person".data (by decide) (by decide)).1,
   C3_resolve_or_create.2.1 _ .table,
   C3_resolve_or_create.2.2.1 _ .table "Person".data "T_1".data (by decide) (by decide)⟩

/-- C5 counterexample: originals are compared with case-sensitive dict
lookup, not case-insensitively: from a fresh registry, `Person` then
`person` in role `table` yield the distinct pseudonyms `T_1` and `T_2`
instead of the same pseudonym. -/
theorem C5_counterexample :
    ((NameMapper.init none none).map .table "Person".data).2 = "T_1".data
    ∧ ((((NameMapper.init none none).map .table "Person".data).1).map .table
        "person".data).2 = "T_2".data
    ∧ "T_2".data ≠ "T_1".data := by decide

theorem map_fresh_snd {nm : NameMapper} {k : Kind} {x : Str} (hx : x ≠ [])
    (h : dlookup (nm.mapping k) x = none) :
    (nm.map k x).2 = nm.prefixes k ++ natStr (nm.counters k) := by
  rw [map_fresh hx h]

theorem map_fresh_prefixes {nm : NameMapper} {k : Kind} {x : Str} (hx : x ≠ [])
    (h : dlookup (nm.mapping k) x = none) :
    ((nm.map k x).1).prefixes = nm.prefixes := by
  rw [map_fresh hx h]

theorem map_fresh_mapping_self {nm : NameMapper} {k : Kind} {x : Str} (hx : x ≠ [])
    (h : dlookup (nm.mapping k) x = none) :
    ((nm.map k x).1).mapping k
      = dinsert (nm.mapping k) x (nm.prefixes k ++ natStr (nm.counters k)) := by
  rw [map_fresh hx h]
  simp

theorem map_fresh_inverse_self {nm : NameMapper} {k : Kind} {x : Str} (hx : x ≠ [])
    (h : dlookup (nm.mapping k) x = none) :
    ((nm.map k x).1).inverse k
      = dinsert (nm.inverse k) (nm.prefixes k ++ natStr (nm.counters k)) x := by
  rw [map_fresh hx h]
  simp

theorem map_fresh_counters_self {nm : NameMapper} {k : Kind} {x : Str} (hx : x ≠ [])
    (h : dlookup (nm.mapping k) x = none) :
    ((nm.map k x).1).counters k = nm.counters k + 1 := by
  rw [map_fresh hx h]
  simp

/-- C5 amended: original names are compared case-sensitively (and stored
case-preserved): two non-empty originals that differ only in letter case are
two distinct keys, so resolve-or-create creates two distinct mappings and
returns two distinct pseudonyms. -/
theorem C5_case_sensitive (k : Kind) (x y : Str) (hx : x ≠ []) (hy : y ≠ [])
    (hne : x ≠ y) (hci : ciEq x y = true) :
    (((NameMapper.init none none).map k x).1.map k y).2
        ≠ ((NameMapper.init none none).map k x).2
    ∧ ((((NameMapper.init none none).map k x).1.map k y).1).mapping k
        = [(x, ((NameMapper.init none none).map k x).2),
           (y, (((NameMapper.init none none).map k x).1.map k y).2)] := by
  have h1 : dlookup ((NameMapper.init none none).mapping k) x = none := by
    rw [init_none_mapping]; rfl
  have e1 := map_fresh_snd hx h1
  have em : (((NameMapper.init none none).map k x).1).mapping k
      = [(x, (NameMapper.init none none).prefixes k
          ++ natStr ((NameMapper.init none none).counters k))] := by
    rw [map_fresh_mapping_self hx h1, init_none_mapping]
    rfl
  have h2 : dlookup ((((NameMapper.init none none).map k x).1).mapping k) y = none := by
    rw [em]
    simp only [dlookup]
    rw [if_neg hne]
  have e2 := map_fresh_snd hy h2
  have ep := map_fresh_prefixes hx h1
  have ec : (((NameMapper.init none none).map k x).1).counters k = 2 := by
    rw [map_fresh_counters_self hx h1, init_none_counters]
  constructor
  · rw [e1, e2, ep, ec, init_none_counters]
    intro hcontra
    have h3 := List.append_cancel_left hcontra
    exact absurd (natStr_inj_pos (by omega) (by omega) h3) (by omega)
  · rw [map_fresh_mapping_self hy h2, em, e1, e2, ep, ec]
    simp only [dinsert]
    rw [if_neg hne]

/-- Witness for C5 at `Person` / `person` in role `table`. -/
theorem C5_case_sensitive_witness :
    (((NameMapper.init none none).map .table "Person".data).1.map .table "person".data).2
      ≠ ((NameMapper.init none none).map .table "Person".data).2 :=
  (C5_case_sensitive .table "Person".data "person".data (by decide) (by decide)
    (by decide) (by decide)).1

/-- C4 counterexample: on a registry imported from `collidingSnapshot`,
resolving the fresh original `Y` generates the pseudonym `DB_2`, which
overwrites the inverse entry of the imported original `X`; from then on
`reverseLookup(database, resolveOrCreate(database, "X"))` returns `Y`, not
`X`, so the round-trip law does not hold for every prior registry state. -/
theorem C4_counterexample :
    ((((fromJsonD collidingSnapshot).map .database "Y".data).1.map .database "X".data).1).unmap
        .database
        (((fromJsonD collidingSnapshot).map .database "Y".data).1.map .database "X".data).2
      = "Y".data
    ∧ "Y".data ≠ "X".data := by decide

/-! ### The registry round-trip invariant -/

theorem map_fresh_mapping_ne {nm : NameMapper} {k k' : Kind} {x : Str} (hx : x ≠ [])
    (h : dlookup (nm.mapping k) x = none) (hk : k' ≠ k) :
    ((nm.map k x).1).mapping k' = nm.mapping k' := by
  rw [map_fresh hx h]
  simp [hk]

theorem map_fresh_inverse_ne {nm : NameMapper} {k k' : Kind} {x : Str} (hx : x ≠ [])
    (h : dlookup (nm.mapping k) x = none) (hk : k' ≠ k) :
    ((nm.map k x).1).inverse k' = nm.inverse k' := by
  rw [map_fresh hx h]
  simp [hk]

theorem map_fresh_counters_ne {nm : NameMapper} {k k' : Kind} {x : Str} (hx : x ≠ [])
    (h : dlookup (nm.mapping k) x = none) (hk : k' ≠ k) :
    ((nm.map k x).1).counters k' = nm.counters k' := by
  rw [map_fresh hx h]
  simp [hk]

theorem regInv_init_none : RegInv (NameMapper.init none none) := by
  refine ⟨fun k => by simp [NameMapper.init], fun k n hn => ?_, fun k o a h => ?_⟩
  · simp [NameMapper.init, aliasesOf]
  · simp [NameMapper.init] at h

theorem map_regInv {nm : NameMapper} (hinv : RegInv nm) (k : Kind) (x : Str) :
    RegInv ((nm.map k x).1) := by
  obtain ⟨hc, hf, hi⟩ := hinv
  by_cases hx : x = []
  · subst hx; rw [map_empty]; exact ⟨hc, hf, hi⟩
  match hl : dlookup (nm.mapping k) x with
  | some a => rw [map_found hx hl]; exact ⟨hc, hf, hi⟩
  | none =>
    have ha0 : (nm.prefixes k ++ natStr (nm.counters k)) ∉ aliasesOf nm k :=
      hf k (nm.counters k) le_rfl
    refine ⟨fun k' => ?_, fun k' n hn => ?_, fun k' o a hmem => ?_⟩
    · by_cases hk : k' = k
      · rw [hk, map_fresh_counters_self hx hl]
        omega
      · rw [map_fresh_counters_ne hx hl hk]
        exact hc k'
    · by_cases hk : k' = k
      · rw [hk] at hn ⊢
        rw [map_fresh_counters_self hx hl] at hn
        rw [map_fresh_prefixes hx hl]
        simp only [aliasesOf]
        rw [map_fresh_mapping_self hx hl, dinsert_of_lookup_none _ hl]
        simp only [List.map_append, List.mem_append, List.map_cons, List.map_nil,
          List.mem_singleton]
        rintro (hin | heq)
        · exact hf k n (by omega) hin
        · have h1 := List.append_cancel_left heq
          have h2 := natStr_inj_pos (by have := hc k; omega) (hc k) h1
          omega
      · rw [map_fresh_counters_ne hx hl hk] at hn
        rw [map_fresh_prefixes hx hl]
        simp only [aliasesOf]
        rw [map_fresh_mapping_ne hx hl hk]
        exact hf k' n hn
    · by_cases hk : k' = k
      · rw [hk] at hmem ⊢
        rw [map_fresh_mapping_self hx hl, dinsert_of_lookup_none _ hl] at hmem
        rw [map_fresh_inverse_self hx hl]
        rcases List.mem_append.mp hmem with hold | hnew
        · have hane : nm.prefixes k ++ natStr (nm.counters k) ≠ a := by
            intro hcontra
            exact ha0 (hcontra ▸ List.mem_map_of_mem Prod.snd hold)
          rw [dlookup_dinsert_ne (fun hh => hane hh.symm)]
          exact hi k o a hold
        · simp only [List.mem_singleton, Prod.mk.injEq] at hnew
          rw [← hnew.1, ← hnew.2]
          exact dlookup_dinsert_self _ _ _
      · rw [map_fresh_mapping_ne hx hl hk] at hmem
        rw [map_fresh_inverse_ne hx hl hk]
        exact hi k' o a hmem

/-- Existing forward entries survive any later resolve-or-create call. -/
theorem map_mem_preserved {nm : NameMapper} {k : Kind} {o a : Str}
    (hmem : (o, a) ∈ nm.mapping k) (k' : Kind) (y : Str) :
    (o, a) ∈ ((nm.map k' y).1).mapping k := by
  by_cases hy : y = []
  · subst hy; rw [map_empty]; exact hmem
  match hl : dlookup (nm.mapping k') y with
  | some b => rw [map_found hy hl]; exact hmem
  | none =>
    by_cases hk : k = k'
    · subst hk
      rw [map_fresh_mapping_self hy hl, dinsert_of_lookup_none _ hl]
      exact List.mem_append_left _ hmem
    · rw [map_fresh_mapping_ne hy hl hk]
      exact hmem

/-- A resolve-or-create call leaves its own forward entry in the registry. -/
theorem map_result_mem {nm : NameMapper} {k : Kind} {x : Str} (hx : x ≠ []) :
    (x, (nm.map k x).2) ∈ ((nm.map k x).1).mapping k := by
  match hl : dlookup (nm.mapping k) x with
  | some a => rw [map_found hx hl]; exact dlookup_mem hl
  | none =>
    rw [map_fresh_mapping_self hx hl, map_fresh_snd hx hl, dinsert_of_lookup_none _ hl]
    exact List.mem_append_right _ (List.mem_singleton.mpr rfl)

theorem runCalls_regInv {nm : NameMapper} (hinv : RegInv nm) (calls : List (Kind × Str)) :
    RegInv (runCalls calls nm) := by
  induction calls generalizing nm with
  | nil => exact hinv
  | cons c tl ih => exact ih (map_regInv hinv c.1 c.2)

theorem runCalls_mem_preserved {nm : NameMapper} {k : Kind} {o a : Str}
    (hmem : (o, a) ∈ nm.mapping k) (calls : List (Kind × Str)) :
    (o, a) ∈ (runCalls calls nm).mapping k := by
  induction calls generalizing nm with
  | nil => exact hmem
  | cons c tl ih => exact ih (map_mem_preserved hmem c.1 c.2)

/-- C4 amended: the round-trip law `reverseLookup (resolveOrCreate x) = x`
holds for every non-empty `x` and keeps holding under all later
resolve-or-create calls, for every registry state satisfying `RegInv` — in
particular for every state grown from an empty registry.  (An imported
snapshot may violate `RegInv` by containing a pseudonym the generator emits
later, and then the law fails, as `C4_counterexample` shows; the claim's
quantification over arbitrary prior states is what the code refutes.) -/
theorem C4_roundtrip_inv :
    RegInv (NameMapper.init none none)
    ∧ ∀ nm, RegInv nm → ∀ k x, x ≠ [] → ∀ calls,
        (runCalls calls ((nm.map k x).1)).unmap k ((nm.map k x).2) = x := by
  refine ⟨regInv_init_none, fun nm hinv k x hx calls => ?_⟩
  have hmem : (x, (nm.map k x).2) ∈ (runCalls calls ((nm.map k x).1)).mapping k :=
    runCalls_mem_preserved (map_result_mem hx) calls
  have hinv2 : RegInv (runCalls calls ((nm.map k x).1)) :=
    runCalls_regInv (map_regInv hinv k x) calls
  rw [NameMapper.unmap, hinv2.2.2 k x _ hmem]
  rfl

/-- Witness for C4's amended law: from the empty registry, map `X` in role
`database`, then also map `Y`; reverse lookup still returns `X`. -/
theorem C4_roundtrip_inv_witness :
    (runCalls [(.database, "Y".data)]
        (((NameMapper.init none none).map .database "X".data).1)).unmap .database
      (((NameMapper.init none none).map .database "X".data).2) = "X".data :=
  C4_roundtrip_inv.2 _ C4_roundtrip_inv.1 .database "X".data (by decide)
    [(.database, "Y".data)]

/-! ### Segmenter facts for unterminated constructs -/

theorem strTail_none_of_no_quote {q : Char} : ∀ {s : Str}, q ∉ s → strTail q s = none := by
  intro s
  induction s with
  | nil => intro h; rfl
  | cons a tl ih =>
    intro h
    have ha : ¬a = q := fun hh => h (by simp [hh])
    cases tl with
    | nil => simp [strTail, ha]
    | cons b rest =>
      have htl : q ∉ b :: rest := fun hh => h (List.mem_cons_of_mem _ hh)
      simp only [strTail, if_neg ha]
      rw [ih htl]

theorem blockTail_none_of_no_star : ∀ {s : Str}, '*' ∉ s → blockTail s = none := by
  intro s
  induction s with
  | nil => intro h; rfl
  | cons a tl ih =>
    intro h
    have ha : ¬a = '*' := fun hh => h (by simp [hh])
    cases tl with
    | nil => rfl
    | cons b rest =>
      have htl : '*' ∉ b :: rest := fun hh => h (List.mem_cons_of_mem _ hh)
      have hcond : ¬(a = '*' ∧ b = '/') := fun hp => ha hp.1
      simp only [blockTail, if_neg hcond]
      rw [ih htl]

theorem tryAt_none_weak {c : Char} {cs : Str} (hdash : c ≠ '-') (hq1 : c ≠ squote)
    (hq2 : c ≠ dquote) (hstar : '*' ∉ cs) : tryAt (c :: cs) = none := by
  simp only [tryAt]
  rw [if_neg hdash]
  by_cases hsl : c = '/'
  · rw [if_pos hsl]
    cases cs with
    | nil => rfl
    | cons c2 cs2 =>
      have h2 : ¬c2 = '*' := fun hh => hstar (by simp [hh])
      simp [h2]
  · rw [if_neg hsl, if_neg (fun h => Or.elim h hq1 hq2)]

theorem findProtected_none_weak : ∀ {s : Str}, '-' ∉ s → '*' ∉ s → squote ∉ s →
    dquote ∉ s → findProtected s = none := by
  intro s
  induction s with
  | nil => intro _ _ _ _; rfl
  | cons c cs ih =>
    intro h1 h2 h3 h4
    have hc1 : c ≠ '-' := fun hh => h1 (by simp [hh])
    have hc3 : c ≠ squote := fun hh => h3 (by simp [hh])
    have hc4 : c ≠ dquote := fun hh => h4 (by simp [hh])
    have ht := tryAt_none_weak hc1 hc3 hc4 (fun hh => h2 (List.mem_cons_of_mem _ hh))
    have hrec := ih (fun hh => h1 (List.mem_cons_of_mem _ hh))
      (fun hh => h2 (List.mem_cons_of_mem _ hh)) (fun hh => h3 (List.mem_cons_of_mem _ hh))
      (fun hh => h4 (List.mem_cons_of_mem _ hh))
    simp only [findProtected]
    rw [ht, hrec]

theorem takeWhile_all {p : Char → Bool} : ∀ {s : Str}, (∀ c ∈ s, p c = true) →
    s.takeWhile p = s ∧ s.dropWhile p = [] := by
  intro s
  induction s with
  | nil => intro h; exact ⟨rfl, rfl⟩
  | cons a tl ih =>
    intro h
    have ha := h a (by simp)
    have htl := fun c hc => h c (List.mem_cons_of_mem _ hc)
    exact ⟨by simp [List.takeWhile_cons, ha, (ih htl).1],
      by simp [List.dropWhile_cons, ha, (ih htl).2]⟩

/-- C6 counterexample: an input ending in an unterminated double-quoted
string literal, and one ending in an unterminated block comment, are each
classified entirely as a single CODE segment: `SEGMENT_RE` requires the
closing delimiter, so no STRING or COMMENT segment is produced. -/
theorem C6_counterexample :
    segments_of "\"abc".data = [(.code, "\"abc".data)]
    ∧ segments_of "/*ab".data = [(.code, "/*ab".data)] := by decide

/-- C6 amended: the segmenter never errors (it is total), and an unterminated
line comment does extend to end of input (`\n?` is optional); but an input
ending in an unterminated string literal or unterminated block comment is
classified as CODE — the match requires the closing delimiter — not as a
STRING/COMMENT segment reaching end of input. -/
theorem C6_unterminated :
    (∀ q s, (q = squote ∨ q = dquote) → '-' ∉ s → '*' ∉ s → squote ∉ s → dquote ∉ s →
      segments_of (q :: s) = [(.code, q :: s)])
    ∧ (∀ s : Str, '-' ∉ s → '*' ∉ s → squote ∉ s → dquote ∉ s →
      segments_of ('/' :: '*' :: s) = [(.code, '/' :: '*' :: s)])
    ∧ (∀ s : Str, '\n' ∉ s →
      segments_of ('-' :: '-' :: s)
        = [(.code, []), (.comment, '-' :: '-' :: s), (.code, [])]) := by
  refine ⟨fun q s hq h1 h2 h3 h4 => ?_, fun s h1 h2 h3 h4 => ?_, fun s h5 => ?_⟩
  · have hqs : q ∉ s := by
      rcases hq with rfl | rfl
      · exact h3
      · exact h4
    have hqd : q ≠ '-' := by rcases hq with rfl | rfl <;> decide
    have hqsl : q ≠ '/' := by rcases hq with rfl | rfl <;> decide
    have ht : tryAt (q :: s) = none := by
      simp only [tryAt]
      rw [if_neg hqd, if_neg hqsl, if_pos hq, strTail_none_of_no_quote hqs]
    have hf : findProtected (q :: s) = none := by
      simp only [findProtected]
      rw [ht, findProtected_none_weak h1 h2 h3 h4]
    show segGo (s.length + 1 + 1) (q :: s) = _
    simp only [segGo]
    rw [hf]
  · have hb : blockTail s = none := blockTail_none_of_no_star h2
    have ht : tryAt ('/' :: '*' :: s) = none := by
      simp [tryAt, hb]
    have ht2 : tryAt ('*' :: s) = none :=
      tryAt_none_weak (by decide) (by decide) (by decide) h2
    have hf : findProtected ('/' :: '*' :: s) = none := by
      simp only [findProtected]
      rw [ht, ht2, findProtected_none_weak h1 h2 h3 h4]
    show segGo (s.length + 1 + 1 + 1) ('/' :: '*' :: s) = _
    simp only [segGo]
    rw [hf]
  · have hall : ∀ c ∈ s, (fun c => !(c == '\n')) c = true := by
      intro c hc
      simp only [Bool.not_eq_true']
      exact beq_false_of_ne (fun hh => h5 (hh ▸ hc))
    have hls : lineSplit s = (s, []) := by
      simp only [lineSplit, (takeWhile_all hall).1, (takeWhile_all hall).2]
    have ht : tryAt ('-' :: '-' :: s) = some (.comment, '-' :: '-' :: s, []) := by
      simp [tryAt, hls]
    have hf : findProtected ('-' :: '-' :: s)
        = some ([], .comment, '-' :: '-' :: s, []) := by
      simp only [findProtected]
      rw [ht]
    show segGo (s.length + 1 + 1 + 1) ('-' :: '-' :: s) = _
    simp only [segGo]
    rw [hf]
    simp [segGo, findProtected]

/-- Witness for C6's amended statement on concrete inputs `"abc`, `/*ab`,
`--ab`. -/
theorem C6_unterminated_witness :
    segments_of (dquote :: "abc".data) = [(.code, dquote :: "abc".data)]
    ∧ segments_of ('/' :: '*' :: "ab".data) = [(.code, '/' :: '*' :: "ab".data)]
    ∧ segments_of ('-' :: '-' :: "ab".data)
        = [(.code, []), (.comment, '-' :: '-' :: "ab".data), (.code, [])] :=
  ⟨C6_unterminated.1 dquote "abc".data (Or.inr rfl) (by decide) (by decide) (by decide)
      (by decide),
   C6_unterminated.2.1 "ab".data (by decide) (by decide) (by decide) (by decide),
   C6_unterminated.2.2 "ab".data (by decide)⟩

/-! ### Decomposition facts: every protected match splits its input -/

theorem lineSplit_decomp (s : Str) : (lineSplit s).1 ++ (lineSplit s).2 = s := by
  have hsplit := @List.takeWhile_append_dropWhile Char (fun c => !(c == '\n')) s
  simp only [lineSplit]
  rcases hrest : s.dropWhile (fun c => !(c == '\n')) with _ | ⟨c, r⟩
  · simp only [List.append_nil]
    rw [hrest] at hsplit
    simpa using hsplit
  · rw [hrest] at hsplit
    by_cases hc : c = '\n'
    · simp only [if_pos hc]
      rw [List.append_assoc, List.singleton_append]
      exact hsplit
    · simp only [if_neg hc]
      exact hsplit

theorem strTail_decomp (q : Char) : ∀ (s c r : Str), strTail q s = some (c, r) →
    s = c ++ r ∧ c ≠ []
  | [], c, r, h => by simp [strTail] at h
  | [a], c, r, h => by
    by_cases ha : a = q
    · simp only [strTail, if_pos ha, Option.some.injEq, Prod.mk.injEq] at h
      obtain ⟨h1, h2⟩ := h
      refine ⟨?_, ?_⟩
      · simp [ha, ← h1, ← h2]
      · rw [← h1]; simp
    · simp [strTail, if_neg ha] at h
  | a :: b :: rest, c, r, h => by
    by_cases ha : a = q
    · by_cases hb : b = q
      · simp only [strTail, if_pos ha, if_pos hb] at h
        rcases hrec : strTail q rest with _ | ⟨c0, r0⟩
        · rw [hrec] at h
          simp only [Option.some.injEq, Prod.mk.injEq] at h
          obtain ⟨h1, h2⟩ := h
          subst h1; subst h2
          simp
        · rw [hrec] at h
          simp only [Option.some.injEq, Prod.mk.injEq] at h
          obtain ⟨h1, h2⟩ := h
          subst h1; subst h2
          obtain ⟨hd, _⟩ := strTail_decomp q rest c0 r0 hrec
          simp [hd]
      · simp only [strTail, if_pos ha, if_neg hb] at h
        simp only [Option.some.injEq, Prod.mk.injEq] at h
        obtain ⟨h1, h2⟩ := h
        subst h1; subst h2
        simp
    · simp only [strTail, if_neg ha] at h
      rcases hrec : strTail q (b :: rest) with _ | ⟨c0, r0⟩
      · rw [hrec] at h; simp at h
      · rw [hrec] at h
        simp only [Option.some.injEq, Prod.mk.injEq] at h
        obtain ⟨h1, h2⟩ := h
        subst h1; subst h2
        obtain ⟨hd, _⟩ := strTail_decomp q (b :: rest) c0 r0 hrec
        simp [← hd]

theorem blockTail_decomp : ∀ (s c r : Str), blockTail s = some (c, r) →
    s = c ++ r ∧ c ≠ []
  | [], c, r, h => by simp [blockTail] at h
  | [a], c, r, h => by simp [blockTail] at h
  | a :: b :: rest, c, r, h => by
    by_cases hab : a = '*' ∧ b = '/'
    · simp only [blockTail, if_pos hab] at h
      simp only [Option.some.injEq, Prod.mk.injEq] at h
      obtain ⟨h1, h2⟩ := h
      subst h1; subst h2
      simp
    · simp only [blockTail, if_neg hab] at h
      rcases hrec : blockTail (b :: rest) with _ | ⟨c0, r0⟩
      · rw [hrec] at h; simp at h
      · rw [hrec] at h
        simp only [Option.some.injEq, Prod.mk.injEq] at h
        obtain ⟨h1, h2⟩ := h
        subst h1; subst h2
        obtain ⟨hd, _⟩ := blockTail_decomp (b :: rest) c0 r0 hrec
        simp [← hd]

theorem tryAt_decomp (s : Str) (t : Tag) (seg r : Str) (h : tryAt s = some (t, seg, r)) :
    s = seg ++ r ∧ seg ≠ [] := by
  cases s with
  | nil => simp [tryAt] at h
  | cons ch cs =>
    simp only [tryAt] at h
    by_cases h1 : ch = '-'
    · rw [if_pos h1] at h
      cases cs with
      | nil => simp at h
      | cons c2 cs2 =>
        by_cases h2 : c2 = '-'
        · simp only [if_pos h2, Option.some.injEq, Prod.mk.injEq] at h
          obtain ⟨_, hseg, hr⟩ := h
          subst hseg; subst hr
          refine ⟨?_, by simp⟩
          simp only [List.cons_append]
          rw [lineSplit_decomp cs2]
        · simp [if_neg h2] at h
    · rw [if_neg h1] at h
      by_cases h3 : ch = '/'
      · rw [if_pos h3] at h
        cases cs with
        | nil => simp at h
        | cons c2 cs2 =>
          by_cases h4 : c2 = '*'
          · simp only [if_pos h4] at h
            rcases hb : blockTail cs2 with _ | ⟨b0, r0⟩
            · rw [hb] at h; simp at h
            · rw [hb] at h
              simp only [Option.some.injEq, Prod.mk.injEq] at h
              obtain ⟨_, hseg, hr⟩ := h
              obtain ⟨hd, _⟩ := blockTail_decomp cs2 b0 r0 hb
              refine ⟨?_, ?_⟩
              · rw [← hseg, ← hr, hd]
                simp
              · rw [← hseg]
                simp
          · simp [if_neg h4] at h
      · rw [if_neg h3] at h
        by_cases h5 : ch = squote ∨ ch = dquote
        · simp only [if_pos h5] at h
          rcases hs : strTail ch cs with _ | ⟨b0, r0⟩
          · rw [hs] at h; simp at h
          · rw [hs] at h
            simp only [Option.some.injEq, Prod.mk.injEq] at h
            obtain ⟨_, hseg, hr⟩ := h
            obtain ⟨hd, _⟩ := strTail_decomp ch cs b0 r0 hs
            refine ⟨?_, ?_⟩
            · rw [← hseg, ← hr, hd]
              simp
            · rw [← hseg]
              simp
        · simp [if_neg h5] at h

theorem findProtected_decomp : ∀ (s g : Str) (t : Tag) (seg r : Str),
    findProtected s = some (g, t, seg, r) → s = g ++ seg ++ r ∧ seg ≠ []
  | [], g, t, seg, r, h => by simp [findProtected] at h
  | c :: cs, g, t, seg, r, h => by
    simp only [findProtected] at h
    rcases ht : tryAt (c :: cs) with _ | ⟨t0, seg0, r0⟩
    · rw [ht] at h
      rcases hrec : findProtected cs with _ | ⟨g1, t1, seg1, r1⟩
      · rw [hrec] at h; simp at h
      · rw [hrec] at h
        simp only [Option.some.injEq, Prod.mk.injEq] at h
        obtain ⟨hg, _, hseg, hr⟩ := h
        obtain ⟨hd, hne⟩ := findProtected_decomp cs g1 t1 seg1 r1 hrec
        refine ⟨?_, ?_⟩
        · rw [← hg, ← hseg, ← hr, hd]
          simp
        · rw [← hseg]
          exact hne
    · rw [ht] at h
      simp only [Option.some.injEq, Prod.mk.injEq] at h
      obtain ⟨hg, _, hseg, hr⟩ := h
      obtain ⟨hd, hne⟩ := tryAt_decomp _ t0 seg0 r0 ht
      refine ⟨?_, ?_⟩
      · rw [← hg, ← hseg, ← hr]
        simpa using hd
      · rw [← hseg]
        exact hne

/-! ### C2: string literals pass through both rewrites verbatim -/

theorem infixOf_cons {p : Str} {c : Char} {cs : Str} (h : InfixOf p cs) :
    InfixOf p (c :: cs) := by
  obtain ⟨l, r, hl⟩ := h
  exact ⟨c :: l, r, by simp [hl]⟩

theorem infixOf_append_left {p a : Str} (t : Str) (h : InfixOf p a) :
    InfixOf p (a ++ t) := by
  obtain ⟨l, r, hl⟩ := h
  exact ⟨l, r ++ t, by rw [← hl]; simp⟩

theorem infixOf_append_right {p a : Str} (t : Str) (h : InfixOf p a) :
    InfixOf p (t ++ a) := by
  obtain ⟨l, r, hl⟩ := h
  exact ⟨t ++ l, r, by rw [← hl]; simp⟩

theorem protGo_succ_none {f : Nat} {s : Str} (h : findProtected s = none) :
    protGo (f + 1) s = [] := by
  unfold protGo
  rw [h]

theorem protGo_succ_some {f : Nat} {s g : Str} {t : Tag} {seg rest : Str}
    (h : findProtected s = some (g, t, seg, rest)) :
    protGo (f + 1) s = (t, seg) :: protGo f rest := by
  conv_lhs => rw [protGo, h]

theorem applyRepGo_succ_none (repls : List Rule) {f : Nat} {s : Str}
    (h : findProtected s = none) : applyRepGo repls (f + 1) s = apply_all s repls := by
  unfold applyRepGo
  rw [h]

theorem applyRepGo_succ_some (repls : List Rule) {f : Nat} {s g : Str} {t : Tag}
    {seg rest : Str} (h : findProtected s = some (g, t, seg, rest)) :
    applyRepGo repls (f + 1) s
      = (apply_all g repls ++ if _is_string seg = true then seg else apply_all seg repls)
        ++ applyRepGo repls f rest := by
  conv_lhs => rw [applyRepGo, h]

theorem string_seg_occ (repls : List Rule) : ∀ (fuel : Nat) (s : Str) (tag : Tag)
    (seg : Str), (tag, seg) ∈ protGo fuel s → _is_string seg = true →
    InfixOf seg (applyRepGo repls fuel s) := by
  intro fuel
  induction fuel with
  | zero => intro s tag seg hmem; simp [protGo] at hmem
  | succ f ih =>
    intro s tag seg hmem hstr
    rcases hf : findProtected s with _ | ⟨g, t2, sg, rest⟩
    · rw [protGo_succ_none hf] at hmem
      simp at hmem
    · rw [protGo_succ_some hf] at hmem
      rw [applyRepGo_succ_some repls hf]
      simp only [List.mem_cons, Prod.mk.injEq] at hmem
      rcases hmem with ⟨h1, h2⟩ | hmem
      · subst h2
        rw [if_pos hstr]
        exact ⟨apply_all g repls, applyRepGo repls f rest, rfl⟩
      · obtain ⟨l, r, hl⟩ := ih rest tag seg hmem hstr
        refine ⟨(apply_all g repls
            ++ if _is_string sg = true then sg else apply_all sg repls) ++ l, r, ?_⟩
        rw [← hl]
        simp

/-- C2: every STRING segment of the input (a single- or double-quote
delimited literal, with doubled-quote escaping honoured by the segmenter)
appears byte-identically in the output of both the forward rewrite
(anonymize, under any parse outcome and registry) and the reverse rewrite
(restore); only CODE and COMMENT segments are handed to the substitution
rules. -/
theorem C2_string_literal_invariance (sql : Str) (nm : NameMapper)
    (parse : Str → Option SqlTree) (tag : Tag) (seg : Str)
    (hmem : (tag, seg) ∈ protectedMatches sql) (hstr : _is_string seg = true) :
    InfixOf seg (anonymize_sql parse sql nm).1 ∧ InfixOf seg (deanonymize_sql sql nm) :=
  ⟨string_seg_occ _ _ _ _ _ hmem hstr, string_seg_occ _ _ _ _ _ hmem hstr⟩

/-- Witness for C2: the double-quoted literal `"x"` of a concrete query is
preserved by both directions even though its contents collide with a
registered column name. -/
theorem C2_string_literal_invariance_witness :
    InfixOf "\"x\"".data
      (anonymize_sql (fun _ => none) "SELECT \"x\" FROM t".data
        ((NameMapper.init none none).map .column "x".data).1).1
    ∧ InfixOf "\"x\"".data
      (deanonymize_sql "SELECT \"x\" FROM t".data
        ((NameMapper.init none none).map .column "x".data).1) :=
  C2_string_literal_invariance _ _ _ Tag.strseg _ (by decide) (by decide)

/-! ### C9: tokens unknown to the registry pass through restore verbatim -/

theorem matchLit_exact : ∀ (pat s m r : Str),
    matchLit (chCmp false) pat s = some (m, r) → m = pat ∧ s = pat ++ r := by
  intro pat
  induction pat with
  | nil =>
    intro s m r h
    simp only [matchLit, Option.some.injEq, Prod.mk.injEq] at h
    obtain ⟨h1, h2⟩ := h
    simp [← h1, ← h2]
  | cons p ps ih =>
    intro s m r h
    cases s with
    | nil => simp [matchLit] at h
    | cons c cs =>
      simp only [matchLit] at h
      by_cases hc : chCmp false p c = true
      · rw [if_pos hc] at h
        have hpc : p = c := by
          simpa [chCmp, charEq] using hc
        rcases hrec : matchLit (chCmp false) ps cs with _ | ⟨m0, r0⟩
        · rw [hrec] at h; simp at h
        · rw [hrec] at h
          simp only [Option.some.injEq, Prod.mk.injEq] at h
          obtain ⟨h1, h2⟩ := h
          obtain ⟨hm, hs⟩ := ih cs m0 r0 hrec
          refine ⟨?_, ?_⟩
          · rw [← h1, hm, hpc]
          · rw [hs, ← h2, hpc]
            simp
      · rw [if_neg hc] at h
        simp at h

theorem bareGo_id_of_no_occ {pat rep : Str} : ∀ (fuel : Nat) (prev : Option Char)
    (s : Str), ¬InfixOf pat s → bareGo (chCmp false) pat rep fuel prev s = s := by
  intro fuel
  induction fuel with
  | zero => intro prev s h; cases s <;> rfl
  | succ f ih =>
    intro prev s h
    cases s with
    | nil => rfl
    | cons c cs =>
      have hcs : ¬InfixOf pat cs := fun hin => h (infixOf_cons hin)
      simp only [bareGo]
      by_cases hb : boundaryOk prev = true
      · rw [if_pos hb]
        rcases hm : matchLit (chCmp false) pat (c :: cs) with _ | ⟨m, r⟩
        · show c :: bareGo (chCmp false) pat rep f (some c) cs = c :: cs
          rw [ih (some c) cs hcs]
        · exfalso
          obtain ⟨_, hs⟩ := matchLit_exact pat (c :: cs) m r hm
          exact h ⟨[], r, by simp [hs]⟩
      · rw [if_neg hb, ih (some c) cs hcs]

theorem bracketTailAt_some_occ {pat cs r : Str} {k : Nat}
    (h : bracketTailAt (chCmp false) pat cs k = some r) : InfixOf pat cs := by
  simp only [bracketTailAt] at h
  rcases hm : matchLit (chCmp false) pat (cs.drop k) with _ | ⟨m0, r1⟩
  · rw [hm] at h; simp at h
  · obtain ⟨_, hs⟩ := matchLit_exact pat (cs.drop k) m0 r1 hm
    exact ⟨cs.take k, r1, by rw [List.append_assoc, ← hs, List.take_append_drop]⟩

theorem bracketAux_some_occ {pat cs r : Str} : ∀ {kk : Nat},
    bracketAux (chCmp false) pat cs kk = some r → InfixOf pat cs := by
  intro kk
  induction kk with
  | zero => intro h; exact bracketTailAt_some_occ h
  | succ k ih =>
    intro h
    simp only [bracketAux] at h
    rcases ht : bracketTailAt (chCmp false) pat cs (k + 1) with _ | r0
    · rw [ht] at h
      exact ih h
    · exact bracketTailAt_some_occ ht

theorem bracketGo_id_of_no_infix {pat rep : Str} : ∀ (fuel : Nat) (s : Str),
    ¬InfixOf pat s → bracketGo (chCmp false) pat rep fuel s = s := by
  intro fuel
  induction fuel with
  | zero => intro s h; cases s <;> rfl
  | succ f ih =>
    intro s h
    cases s with
    | nil => rfl
    | cons c cs =>
      have hcs : ¬InfixOf pat cs := fun hin => h (infixOf_cons hin)
      simp only [bracketGo]
      by_cases hc : c = '['
      · rw [if_pos hc]
        rcases hb : bracketTry (chCmp false) pat cs with _ | r
        · show c :: bracketGo (chCmp false) pat rep f cs = c :: cs
          rw [ih cs hcs]
        · exact absurd (bracketAux_some_occ hb) hcs
      · rw [if_neg hc, ih cs hcs]

theorem applyRule_id {rule : Rule} {s : Str} (hci : ruleCI rule = false)
    (h : ¬InfixOf (rulePat rule) s) : applyRule s rule = s := by
  cases rule with
  | bracket ci pat rep =>
    simp only [ruleCI] at hci
    subst hci
    simp only [applyRule, subBracket]
    exact bracketGo_id_of_no_infix _ _ h
  | bare ci pat rep =>
    simp only [ruleCI] at hci
    subst hci
    simp only [applyRule, subBare]
    by_cases hp : pat = []
    · rw [if_pos hp]
    · rw [if_neg hp]
      exact bareGo_id_of_no_occ _ _ _ h

theorem apply_all_id : ∀ (repls : List Rule) (s : Str),
    (∀ rule ∈ repls, ruleCI rule = false ∧ ¬InfixOf (rulePat rule) s) →
    apply_all s repls = s := by
  intro repls
  induction repls with
  | nil => intro s h; rfl
  | cons rule tl ih =>
    intro s h
    have h0 := h rule (List.mem_cons_self _ _)
    show apply_all (applyRule s rule) tl = s
    rw [applyRule_id h0.1 h0.2]
    exact ih s (fun r hr => h r (List.mem_cons_of_mem _ hr))

theorem applyRepGo_id (repls : List Rule) : ∀ (fuel : Nat) (s : Str),
    (∀ rule ∈ repls, ruleCI rule = false ∧ ¬InfixOf (rulePat rule) s) →
    applyRepGo repls fuel s = s := by
  intro fuel
  induction fuel with
  | zero => intro s h; rfl
  | succ f ih =>
    intro s h
    rcases hf : findProtected s with _ | ⟨g, t2, sg, rest⟩
    · rw [applyRepGo_succ_none repls hf]
      exact apply_all_id repls s h
    · obtain ⟨hdec, hne⟩ := findProtected_decomp s g t2 sg rest hf
      have hg : ∀ rule ∈ repls, ruleCI rule = false ∧ ¬InfixOf (rulePat rule) g :=
        fun r hr => ⟨(h r hr).1, fun hin =>
          (h r hr).2 (hdec ▸ infixOf_append_left _ (infixOf_append_left _ hin))⟩
      have hs : ∀ rule ∈ repls, ruleCI rule = false ∧ ¬InfixOf (rulePat rule) sg :=
        fun r hr => ⟨(h r hr).1, fun hin => (h r hr).2
          (hdec ▸ infixOf_append_left _ (infixOf_append_right _ hin))⟩
      have hr2 : ∀ rule ∈ repls, ruleCI rule = false ∧ ¬InfixOf (rulePat rule) rest :=
        fun r hr => ⟨(h r hr).1, fun hin =>
          (h r hr).2 (hdec ▸ infixOf_append_right _ hin)⟩
      rw [applyRepGo_succ_some repls hf, apply_all_id repls g hg, ih rest hr2]
      have hmid : (if _is_string sg = true then sg else apply_all sg repls) = sg := by
        by_cases hstr : _is_string sg = true
        · rw [if_pos hstr]
        · rw [if_neg hstr]
          exact apply_all_id repls sg hs
      rw [hmid]
      exact hdec.symm

theorem mem_rulesOfPairs {mk : Str → Str → List Rule} : ∀ {l : List (Str × Str)}
    {rule : Rule}, rule ∈ rulesOfPairs mk l → ∃ p ∈ l, rule ∈ mk p.1 p.2 := by
  intro l
  induction l with
  | nil => intro rule h; simp [rulesOfPairs] at h
  | cons p tl ih =>
    intro rule h
    rcases List.mem_append.mp h with hmk | htl
    · exact ⟨p, List.mem_cons_self _ _, hmk⟩
    · obtain ⟨p2, hp2, hmk2⟩ := ih htl
      exact ⟨p2, List.mem_cons_of_mem _ hp2, hmk2⟩

theorem rev_rule_spec {nm : NameMapper} {rule : Rule}
    (h : rule ∈ _build_replacements_reverse nm) :
    ruleCI rule = false ∧ ∃ k a o, (a, o) ∈ nm.inverse k ∧ rulePat rule = a := by
  have main : ∀ k : Kind, rule ∈ rulesOfPairs
      (fun a o => [Rule.bracket false a o, Rule.bare false a o]) (nm.inverse k) →
      ruleCI rule = false ∧ ∃ k a o, (a, o) ∈ nm.inverse k ∧ rulePat rule = a := by
    intro k hk
    obtain ⟨p, hp, hmk⟩ := mem_rulesOfPairs hk
    simp only [List.mem_cons, List.mem_singleton] at hmk
    rcases hmk with rfl | hmk2
    · exact ⟨rfl, k, p.1, p.2, hp, rfl⟩
    · rcases hmk2 with rfl | hmk3
      · exact ⟨rfl, k, p.1, p.2, hp, rfl⟩
      · simp at hmk3
  unfold _build_replacements_reverse at h
  rcases List.mem_append.mp h with h1 | hco
  · rcases List.mem_append.mp h1 with h2 | htb
    · rcases List.mem_append.mp h2 with hdb | hsc
      · exact main .database hdb
      · exact main .schema hsc
    · exact main .table htb
  · exact main .column hco

/-- C9: unknown pseudonym-like tokens pass through restore verbatim.
`reverseLookup` of a pseudonym absent from the inverse map returns the
pseudonym itself, and restoring a text in which no registered pseudonym
occurs at all leaves the text byte-identical (the reverse rules match only
pseudonyms recorded in the registry, case-exactly). -/
theorem C9_unknown_passthrough :
    (∀ (nm : NameMapper) (k : Kind) (a : Str),
      dlookup (nm.inverse k) a = none → nm.unmap k a = a)
    ∧ (∀ (nm : NameMapper) (t : Str),
      (∀ k a o, (a, o) ∈ nm.inverse k → ¬InfixOf a t) →
      deanonymize_sql t nm = t) := by
  constructor
  · intro nm k a h
    simp [NameMapper.unmap, h]
  · intro nm t h
    apply applyRepGo_id
    intro rule hrule
    obtain ⟨hci, k, a, o, hmem, hpat⟩ := rev_rule_spec hrule
    exact ⟨hci, hpat ▸ h k a o hmem⟩

/-- Witness for C9: the empty registry does not know `DB_9`, so reverse
lookup returns it unchanged and restore leaves a text containing it
untouched. -/
theorem C9_unknown_passthrough_witness :
    NameMapper.unmap (NameMapper.init none none) .database "DB_9".data = "DB_9".data
    ∧ deanonymize_sql "SELECT DB_9".data (NameMapper.init none none)
        = "SELECT DB_9".data :=
  ⟨C9_unknown_passthrough.1 _ _ _ (by decide),
   C9_unknown_passthrough.2 _ _ (by
    intro k a o hmem
    simp [NameMapper.init, buildInverse] at hmem)⟩

/-! ### C7: parser failure is recovered silently -/

/-- C7: when the external parser rejects the cleaned text, extraction returns
exactly the registry produced by the session-context (USE) scan — nothing is
lost and nothing raises — and anonymize still applies the forward rewrite
built from that registry; every database name the USE scan registered is
still registered in the returned registry. -/
theorem C7_parser_failure_recovery (parse : Str → Option SqlTree) (sql : Str)
    (nm : NameMapper) (h : parse (_strip_use_for_parse sql) = none) :
    _extract_mapping parse sql nm = _map_use_databases sql nm
    ∧ anonymize_sql parse sql nm
        = (_apply_replacements_to_code_and_comments sql
            (_build_replacements_forward (_map_use_databases sql nm)),
           _map_use_databases sql nm)
    ∧ (∀ o a, dlookup ((_map_use_databases sql nm).mapping .database) o = some a →
        dlookup (((anonymize_sql parse sql nm).2).mapping .database) o = some a) := by
  have he : _extract_mapping parse sql nm = _map_use_databases sql nm := by
    unfold _extract_mapping
    rw [h]
  refine ⟨he, ?_, ?_⟩
  · unfold anonymize_sql
    rw [he]
  · intro o a ha
    show dlookup ((_extract_mapping parse sql nm).mapping .database) o = some a
    rw [he]
    exact ha

/-- Witness for C7 with an always-failing parser on `USE Db` (sqlglot indeed
raises on the whitespace that remains once the `USE` statement is removed). -/
theorem C7_parser_failure_recovery_witness :
    _extract_mapping (fun _ => none) "USE Db".data (NameMapper.init none none)
      = _map_use_databases "USE Db".data (NameMapper.init none none) :=
  (C7_parser_failure_recovery (fun _ => none) "USE Db".data
    (NameMapper.init none none) rfl).1

/-! ### C8: `USE` without a statement terminator still registers the database -/

theorem map_dlookup_preserved {nm : NameMapper} {k : Kind} {o a : Str}
    (h : dlookup (nm.mapping k) o = some a) (k' : Kind) (y : Str) :
    dlookup (((nm.map k' y).1).mapping k) o = some a := by
  by_cases hy : y = []
  · subst hy; rw [map_empty]; exact h
  match hl : dlookup (nm.mapping k') y with
  | some b => rw [map_found hy hl]; exact h
  | none =>
    by_cases hk : k = k'
    · subst hk
      rw [map_fresh_mapping_self hy hl, dinsert_of_lookup_none _ hl]
      exact dlookup_append_left h
    · rw [map_fresh_mapping_ne hy hl hk]
      exact h

theorem ite_map_dlookup_preserved {nm : NameMapper} {k : Kind} {o a : Str}
    (h : dlookup (nm.mapping k) o = some a) (c : Prop) [Decidable c]
    (k' : Kind) (y : Str) :
    dlookup (((if c then (nm.map k' y).1 else nm)).mapping k) o = some a := by
  split
  · exact map_dlookup_preserved h k' y
  · exact h

theorem visitAction_dlookup_preserved {nm : NameMapper} {k : Kind} {o a : Str}
    (h : dlookup (nm.mapping k) o = some a) (act : SqlAction) :
    dlookup ((visitAction nm act).mapping k) o = some a := by
  cases act with
  | tableA catalog db name =>
    exact ite_map_dlookup_preserved
      (ite_map_dlookup_preserved (ite_map_dlookup_preserved h _ _ _) _ _ _) _ _ _
  | columnA name => exact ite_map_dlookup_preserved h _ _ _

theorem visitTree_dlookup_preserved {k : Kind} {o a : Str} : ∀ (t : SqlTree)
    {nm : NameMapper}, dlookup (nm.mapping k) o = some a →
    dlookup ((visitTree t nm).mapping k) o = some a := by
  intro t
  induction t with
  | nil => intro nm h; exact h
  | cons act tl ih => intro nm h; exact ih (visitAction_dlookup_preserved h act)

/-- C8: anonymizing `USE AdventureWorks2019\nSELECT TOP 10 * FROM
[dbo].[Person]` from an empty registry registers `AdventureWorks2019` under
role `database` (as `DB_1`), whatever tree or failure the external parser
returns for the cleaned text: the USE scan needs no statement terminator
before the `SELECT`, and tree registrations never remove entries. -/
theorem C8_use_without_terminator (parse : Str → Option SqlTree) :
    dlookup (((anonymize_sql parse
        "USE AdventureWorks2019\nSELECT TOP 10 * FROM [dbo].[Person]".data
        (NameMapper.init none none)).2).mapping .database)
      "AdventureWorks2019".data = some "DB_1".data := by
  show dlookup ((_extract_mapping parse
      "USE AdventureWorks2019\nSELECT TOP 10 * FROM [dbo].[Person]".data
      (NameMapper.init none none)).mapping .database)
    "AdventureWorks2019".data = some "DB_1".data
  have hbase : dlookup ((_map_use_databases
      "USE AdventureWorks2019\nSELECT TOP 10 * FROM [dbo].[Person]".data
      (NameMapper.init none none)).mapping .database)
      "AdventureWorks2019".data = some "DB_1".data := by decide
  unfold _extract_mapping
  cases parse (_strip_use_for_parse
      "USE AdventureWorks2019\nSELECT TOP 10 * FROM [dbo].[Person]".data) with
  | none => exact hbase
  | some tree => exact visitTree_dlookup_preserved tree hbase

/-! ### C10: snapshots lacking `mapping` / `prefixes` load with defaults -/

/-- C10: deserializing a JSON object that lacks the `mapping` field, the
`prefixes` field, or both (e.g. the empty object `{}`) succeeds — no
malformed-snapshot error — and yields a registry whose per-role mappings are
empty and/or whose prefixes are the defaults. -/
theorem C10_missing_fields (kvs : List (Str × Json)) :
    (jlookup kvs "mapping".data = none → jlookup kvs "prefixes".data = none →
      NameMapper.fromJson (Json.jobj kvs) = .ok (NameMapper.init none none)
      ∧ (∀ k, (NameMapper.init none none).mapping k = [])
      ∧ (NameMapper.init none none).prefixes = DEFAULT_PREFIXES)
    ∧ (∀ p, jlookup kvs "mapping".data = none →
        decodePrefixField (jlookup kvs "prefixes".data) = .ok p →
        NameMapper.fromJson (Json.jobj kvs) = .ok (NameMapper.init none p)
        ∧ ∀ k, (NameMapper.init none p).mapping k = [])
    ∧ (∀ m, jlookup kvs "prefixes".data = none →
        decodeMappingField (jlookup kvs "mapping".data) = .ok m →
        NameMapper.fromJson (Json.jobj kvs) = .ok (NameMapper.init m none)
        ∧ (NameMapper.init m none).prefixes = DEFAULT_PREFIXES) := by
  refine ⟨fun h1 h2 => ?_, fun p h1 hp => ?_, fun m h2 hm => ?_⟩
  · refine ⟨?_, fun k => by simp [NameMapper.init], by simp [NameMapper.init]⟩
    show (do
      let mopt ← decodeMappingField (jlookup kvs "mapping".data)
      let popt ← decodePrefixField (jlookup kvs "prefixes".data)
      Except.ok (NameMapper.init mopt popt)) = Except.ok (NameMapper.init none none)
    rw [h1, h2]
    rfl
  · refine ⟨?_, fun k => by simp [NameMapper.init]⟩
    show (do
      let mopt ← decodeMappingField (jlookup kvs "mapping".data)
      let popt ← decodePrefixField (jlookup kvs "prefixes".data)
      Except.ok (NameMapper.init mopt popt)) = Except.ok (NameMapper.init none p)
    rw [h1, hp]
    rfl
  · refine ⟨?_, by simp [NameMapper.init]⟩
    show (do
      let mopt ← decodeMappingField (jlookup kvs "mapping".data)
      let popt ← decodePrefixField (jlookup kvs "prefixes".data)
      Except.ok (NameMapper.init mopt popt)) = Except.ok (NameMapper.init m none)
    rw [h2, hm]
    rfl

/-- Witness for C10 at the empty object `{}`. -/
theorem C10_missing_fields_witness :
    NameMapper.fromJson (Json.jobj []) = .ok (NameMapper.init none none) :=
  ((C10_missing_fields []).1 rfl rfl).1

/-! ### C1: facts about plain identifier characters and scanner steps -/

theorem plainCh_not_ws {c : Char} (h : plainCh c = true) : isWs c = false := by
  simp only [plainCh, decide_eq_true_eq] at h
  simp only [isWs, decide_eq_false_iff_not]
  omega

theorem plainCh_ne {c q : Char} (h : plainCh c = true) (hq : plainCh q = false) :
    c ≠ q := by
  intro he
  rw [he, hq] at h
  exact Bool.noConfusion h

theorem plainCh_not_ci_space {c : Char} (h : plainCh c = true) :
    charCI c ' ' = false := by
  simp only [plainCh, decide_eq_true_eq] at h
  simp only [charCI]
  rw [show Char.toNat ' ' = 32 from rfl]
  simp only [beq_eq_false_iff_ne, ne_eq]
  unfold lowerN
  split_ifs <;> omega

theorem init_none_prefixes : (NameMapper.init none none).prefixes = DEFAULT_PREFIXES := by
  simp [NameMapper.init]

theorem init_none_inverse (k : Kind) : (NameMapper.init none none).inverse k = [] := by
  simp [NameMapper.init, buildInverse]

theorem segGo_succ_none {f : Nat} {s : Str} (h : findProtected s = none) :
    segGo (f + 1) s = [(.code, s)] := by
  unfold segGo
  rw [h]

theorem stripGo_succ_none {f : Nat} {s : Str} (h : findProtected s = none) :
    stripGo (f + 1) s = useSub s := by
  unfold stripGo
  rw [h]

theorem useGo_succ_match {f : Nat} {prev : Option Char} {c : Char}
    {cs content consumed rest : Str}
    (h : matchUseAt prev (c :: cs) = some (content, consumed, rest)) :
    useGo (f + 1) prev (c :: cs)
      = pyStrip content :: useGo f consumed.getLast? rest := by
  conv_lhs => rw [useGo, h]

theorem useSubGo_succ_match {f : Nat} {prev : Option Char} {c : Char}
    {cs content consumed rest : Str}
    (h : matchUseAt prev (c :: cs) = some (content, consumed, rest)) :
    useSubGo (f + 1) prev (c :: cs) = useSubGo f consumed.getLast? rest := by
  conv_lhs => rw [useSubGo, h]

theorem bareGo_skip_boundary {cmp : Char → Char → Bool} {pat rep : Str} {f : Nat}
    {prev : Option Char} {c : Char} {cs : Str} (h : boundaryOk prev = false) :
    bareGo cmp pat rep (f + 1) prev (c :: cs)
      = c :: bareGo cmp pat rep f (some c) cs := by
  conv_lhs => rw [bareGo]
  rw [if_neg (by rw [h]; exact Bool.noConfusion)]

theorem bareGo_skip_nomatch {cmp : Char → Char → Bool} {pat rep : Str} {f : Nat}
    {prev : Option Char} {c : Char} {cs : Str}
    (h : matchLit cmp pat (c :: cs) = none) :
    bareGo cmp pat rep (f + 1) prev (c :: cs)
      = c :: bareGo cmp pat rep f (some c) cs := by
  conv_lhs => rw [bareGo]
  by_cases hb : boundaryOk prev = true
  · rw [if_pos hb, h]
  · rw [if_neg hb]

theorem bareGo_skip_next {cmp : Char → Char → Bool} {pat rep : Str} {f : Nat}
    {prev : Option Char} {c : Char} {cs m r : Str}
    (h : matchLit cmp pat (c :: cs) = some (m, r)) (hn : nextOk r = false) :
    bareGo cmp pat rep (f + 1) prev (c :: cs)
      = c :: bareGo cmp pat rep f (some c) cs := by
  conv_lhs => rw [bareGo]
  by_cases hb : boundaryOk prev = true
  · rw [if_pos hb, h]
    simp only [hn]
    rw [if_neg (by exact Bool.noConfusion)]
  · rw [if_neg hb]

theorem bareGo_match {cmp : Char → Char → Bool} {pat rep : Str} {f : Nat}
    {prev : Option Char} {c : Char} {cs m r : Str} (hb : boundaryOk prev = true)
    (h : matchLit cmp pat (c :: cs) = some (m, r)) (hn : nextOk r = true) :
    bareGo cmp pat rep (f + 1) prev (c :: cs)
      = rep ++ bareGo cmp pat rep f m.getLast? r := by
  conv_lhs => rw [bareGo]
  rw [if_pos hb, h]
  simp [hn]

theorem matchLit_ci_self : ∀ (l : Str), matchLit (chCmp true) l l = some (l, []) := by
  intro l
  induction l with
  | nil => rfl
  | cons c cs ih =>
    have hcc : chCmp true c c = true := by
      simp [chCmp, charCI]
    simp only [matchLit, if_pos hcc, ih]

theorem bracketGo_id_of_no_lbrack {cmp : Char → Char → Bool} {pat rep : Str} :
    ∀ (fuel : Nat) (s : Str), (∀ c ∈ s, ¬c = '[') →
    bracketGo cmp pat rep fuel s = s := by
  intro fuel
  induction fuel with
  | zero => intro s h; cases s <;> rfl
  | succ f ih =>
    intro s h
    cases s with
    | nil => rfl
    | cons c cs =>
      have hc : ¬c = '[' := h c (by simp)
      conv_lhs => rw [bracketGo]
      rw [if_neg hc, ih cs (fun x hx => h x (List.mem_cons_of_mem _ hx))]

theorem dropWhile_isWs_of_plain {s : Str} (h : ∀ c ∈ s, plainCh c = true) :
    s.dropWhile isWs = s := by
  cases s with
  | nil => rfl
  | cons a tl => simp [List.dropWhile_cons, plainCh_not_ws (h a (by simp))]

theorem pyStrip_plain {s : Str} (h : ∀ c ∈ s, plainCh c = true) : pyStrip s = s := by
  unfold pyStrip
  rw [dropWhile_isWs_of_plain h,
    dropWhile_isWs_of_plain (fun c hc => h c (List.mem_reverse.mp hc)),
    List.reverse_reverse]

theorem takeWhile_isWs_of_plain {s : Str} (h : ∀ c ∈ s, plainCh c = true) :
    s.takeWhile isWs = [] := by
  cases s with
  | nil => rfl
  | cons a tl => simp [List.takeWhile_cons, plainCh_not_ws (h a (by simp))]

/-- The `USE_DB_RE` match at the head of `USE <name>` for a plain, non-empty
identifier `name`: the whole text is consumed and `name` is captured. -/
theorem matchUseAt_use_name {name : Str} (h1 : name ≠ [])
    (h2 : ∀ c ∈ name, plainCh c = true) :
    matchUseAt none ('U' :: 'S' :: 'E' :: ' ' :: name)
      = some (name, 'U' :: 'S' :: 'E' :: ' ' :: name, []) := by
  cases name with
  | nil => exact absurd rfl h1
  | cons n0 ntl =>
    have hall := h2
    have hmp : matchLit charCI "use".data ('U' :: 'S' :: 'E' :: ' ' :: n0 :: ntl)
        = some (['U', 'S', 'E'], ' ' :: n0 :: ntl) := rfl
    have htw : (' ' :: n0 :: ntl).takeWhile isWs = [' '] := by
      have : (n0 :: ntl).takeWhile isWs = [] := takeWhile_isWs_of_plain hall
      simp [List.takeWhile_cons, this, show isWs ' ' = true from by decide]
    have hn0 : ¬n0 = '[' := plainCh_ne (hall n0 (by simp)) (by decide)
    have hrun : (n0 :: ntl).takeWhile plainCh = n0 :: ntl := (takeWhile_all hall).1
    unfold matchUseAt
    rw [hmp]
    simp only [htw]
    rw [if_neg (by simp : ¬([' '] : Str) = [])]
    simp only [List.length_cons, List.length_nil, List.drop_succ_cons, List.drop_zero]
    rw [if_neg hn0]
    simp only [hrun]
    rw [if_neg (by simp : ¬(n0 :: ntl : Str) = [])]
    rw [List.drop_length]
    simp [boundaryOk]

theorem bareGo_nil {cmp : Char → Char → Bool} {pat rep : Str} (f : Nat)
    (prev : Option Char) : bareGo cmp pat rep f prev [] = [] := by
  cases f <;> rfl

theorem useGo_nil (f : Nat) (prev : Option Char) : useGo f prev [] = [] := by
  cases f <;> rfl

theorem useSubGo_nil (f : Nat) (prev : Option Char) : useSubGo f prev [] = [] := by
  cases f <;> rfl

theorem matchLit_cons_some {cmp : Char → Char → Bool} {p : Char} {ps : Str}
    {c : Char} {cs m r : Str}
    (h : matchLit cmp (p :: ps) (c :: cs) = some (m, r)) :
    cmp p c = true ∧ ∃ m0, m = c :: m0 ∧ matchLit cmp ps cs = some (m0, r) := by
  simp only [matchLit] at h
  by_cases hc : cmp p c = true
  · rw [if_pos hc] at h
    rcases hm : matchLit cmp ps cs with _ | ⟨m0, r0⟩
    · rw [hm] at h; simp at h
    · rw [hm] at h
      simp only [Option.some.injEq, Prod.mk.injEq] at h
      obtain ⟨hh1, hh2⟩ := h
      refine ⟨hc, m0, hh1.symm, ?_⟩
      rw [← hh2]
  · rw [if_neg hc] at h
    simp at h

/-- Any word-bounded case-insensitive occurrence of `name` in the text
`USE name` must be the `name` occurrence itself: a plain `name` that is not
a case variant of `use` cannot match with an acceptable right boundary
anywhere inside the `USE ` prefix. -/
theorem use_text_no_keyword_match {name : Str} (h2 : ∀ c ∈ name, plainCh c = true)
    (h3 : ciEq name "use".data = false) (m r : Str)
    (h : matchLit (chCmp true) name ('U' :: 'S' :: 'E' :: ' ' :: name) = some (m, r)) :
    nextOk r = false := by
  rcases name with _ | ⟨a, _ | ⟨b, _ | ⟨c, _ | ⟨d, tl⟩⟩⟩⟩
  · simp only [matchLit, Option.some.injEq, Prod.mk.injEq] at h
    rw [← h.2]
    rfl
  · obtain ⟨hca, m0, hm0, h0⟩ := matchLit_cons_some h
    simp only [matchLit, Option.some.injEq, Prod.mk.injEq] at h0
    rw [← h0.2]
    rfl
  · obtain ⟨hca, m0, hm0, h0⟩ := matchLit_cons_some h
    obtain ⟨hcb, m1, hm1, h1⟩ := matchLit_cons_some h0
    simp only [matchLit, Option.some.injEq, Prod.mk.injEq] at h1
    rw [← h1.2]
    rfl
  · obtain ⟨hca, m0, hm0, h0⟩ := matchLit_cons_some h
    obtain ⟨hcb, m1, hm1, h1⟩ := matchLit_cons_some h0
    obtain ⟨hcc, m2, hm2, h2c⟩ := matchLit_cons_some h1
    exfalso
    have e1 : charCI a 'u' = true := hca
    have e2 : charCI b 's' = true := hcb
    have e3 : charCI c 'e' = true := hcc
    have : ciEq [a, b, c] "use".data = true := by
      simp [ciEq, e1, e2, e3]
    rw [this] at h3
    exact Bool.noConfusion h3
  · obtain ⟨hca, m0, hm0, h0⟩ := matchLit_cons_some h
    obtain ⟨hcb, m1, hm1, h1⟩ := matchLit_cons_some h0
    obtain ⟨hcc, m2, hm2, h2c⟩ := matchLit_cons_some h1
    obtain ⟨hcd, m3, hm3, h3c⟩ := matchLit_cons_some h2c
    exfalso
    have hd : charCI d ' ' = true := hcd
    rw [plainCh_not_ci_space (h2 d (by simp))] at hd
    exact Bool.noConfusion hd

/-- The forward bare rule for `name` on `USE name`: exactly the `name`
occurrence is replaced. -/
theorem bareGo_use {name rep : Str} (f : Nat) (h1 : name ≠ [])
    (h2 : ∀ c ∈ name, plainCh c = true) (h3 : ciEq name "use".data = false) :
    bareGo (chCmp true) name rep (f + 5) none ('U' :: 'S' :: 'E' :: ' ' :: name)
      = 'U' :: 'S' :: 'E' :: ' ' :: rep := by
  have s0 : bareGo (chCmp true) name rep (f + 5) none ('U' :: 'S' :: 'E' :: ' ' :: name)
      = 'U' :: bareGo (chCmp true) name rep (f + 4) (some 'U')
          ('S' :: 'E' :: ' ' :: name) := by
    rcases hm : matchLit (chCmp true) name ('U' :: 'S' :: 'E' :: ' ' :: name)
      with _ | ⟨m, r⟩
    · exact bareGo_skip_nomatch hm
    · exact bareGo_skip_next hm (use_text_no_keyword_match h2 h3 m r hm)
  rw [s0, bareGo_skip_boundary (by rfl), bareGo_skip_boundary (by rfl),
    bareGo_skip_boundary (by rfl)]
  cases name with
  | nil => exact absurd rfl h1
  | cons n0 ntl =>
    rw [bareGo_match (by rfl) (matchLit_ci_self (n0 :: ntl)) (by rfl)]
    rw [bareGo_nil]
    simp

/-- C1 counterexample: the same identifier spelled in two letter cases (`Db`
and `DB`, both discovered and registered by the USE scan) breaks the
round-trip: the case-insensitive forward rewrite maps both spellings to the
first pseudonym, and restore emits the first registered spelling for both.
`fun _ => none` is the faithful parse oracle here: once the `USE` statements
are stripped only `"\n"` remains, which sqlglot rejects. -/
theorem C1_counterexample :
    deanonymize_sql
        (anonymize_sql (fun _ => none) "USE Db\nUSE DB".data
          (NameMapper.init none none)).1
        (anonymize_sql (fun _ => none) "USE Db\nUSE DB".data
          (NameMapper.init none none)).2
      = "USE Db\nUSE Db".data
    ∧ deanonymize_sql
        (anonymize_sql (fun _ => none) "USE Db\nUSE DB".data
          (NameMapper.init none none)).1
        (anonymize_sql (fun _ => none) "USE Db\nUSE DB".data
          (NameMapper.init none none)).2
      ≠ "USE Db\nUSE DB".data := by
  constructor
  · decide
  · decide

/-- C1 amended: the round-trip law, scoped to the session-context scan in
its basic form: for every non-empty plain identifier `name` (characters
from `[A-Za-z0-9_.$]`) that is not a case variant of the keyword `use`, and
any parser that rejects the empty cleaned text, anonymizing
`USE <name>` from an empty registry and restoring with the returned
registry reproduces the input exactly. (The unrestricted law fails even
with single-case spellings when an input identifier lexically equals a
pseudonym the generator will emit: the freshly created rule rewrites it
again, cascading it to the next pseudonym.) -/
theorem C1_roundtrip_single_case (parse : Str → Option SqlTree) (name : Str)
    (h1 : name ≠ []) (h2 : ∀ c ∈ name, plainCh c = true)
    (h3 : ciEq name "use".data = false) (hp : parse [] = none) :
    deanonymize_sql
        (anonymize_sql parse ("USE ".data ++ name) (NameMapper.init none none)).1
        (anonymize_sql parse ("USE ".data ++ name) (NameMapper.init none none)).2
      = "USE ".data ++ name := by
  have ht : "USE ".data ++ name = 'U' :: 'S' :: 'E' :: ' ' :: name := rfl
  rw [ht]
  have hnotin : ∀ q : Char, plainCh q = false → ¬q = 'U' → ¬q = 'S' → ¬q = 'E' →
      ¬q = ' ' → q ∉ ('U' :: 'S' :: 'E' :: ' ' :: name) := by
    intro q hq hqU hqS hqE hqsp hmem
    simp only [List.mem_cons] at hmem
    rcases hmem with hh | hh | hh | hh | hh
    · exact hqU hh
    · exact hqS hh
    · exact hqE hh
    · exact hqsp hh
    · have := h2 q hh
      rw [hq] at this
      exact Bool.noConfusion this
  have hfp : findProtected ('U' :: 'S' :: 'E' :: ' ' :: name) = none :=
    findProtected_none_weak
      (hnotin '-' (by decide) (by decide) (by decide) (by decide) (by decide))
      (hnotin '*' (by decide) (by decide) (by decide) (by decide) (by decide))
      (hnotin squote (by decide) (by decide) (by decide) (by decide) (by decide))
      (hnotin dquote (by decide) (by decide) (by decide) (by decide) (by decide))
  have hlb : ∀ c ∈ ('U' :: 'S' :: 'E' :: ' ' :: name), ¬c = '[' := by
    intro c hc he
    exact hnotin '[' (by decide) (by decide) (by decide) (by decide) (by decide)
      (he ▸ hc)
  have hmu : matchUseAt none ('U' :: 'S' :: 'E' :: ' ' :: name)
      = some (name, 'U' :: 'S' :: 'E' :: ' ' :: name, []) := matchUseAt_use_name h1 h2
  have hnames : useNamesIn ('U' :: 'S' :: 'E' :: ' ' :: name) = [name] := by
    unfold useNamesIn
    rw [useGo_succ_match hmu, useGo_nil, pyStrip_plain h2]
  have hscan : _scan_code_segments ('U' :: 'S' :: 'E' :: ' ' :: name)
      = ['U' :: 'S' :: 'E' :: ' ' :: name] := by
    unfold _scan_code_segments segments_of
    rw [segGo_succ_none hfp]
    rfl
  have hmap : _map_use_databases ('U' :: 'S' :: 'E' :: ' ' :: name)
      (NameMapper.init none none)
      = ((NameMapper.init none none).map .database name).1 := by
    unfold _map_use_databases
    rw [hscan]
    simp [hnames, h1]
  have hl0 : dlookup ((NameMapper.init none none).mapping .database) name = none := by
    rw [init_none_mapping]
    rfl
  have hA : (NameMapper.init none none).prefixes .database
      ++ natStr ((NameMapper.init none none).counters .database) = "DB_1".data := by
    rw [init_none_prefixes, init_none_counters]
    rfl
  have hm_db : (((NameMapper.init none none).map .database name).1).mapping .database
      = [(name, "DB_1".data)] := by
    rw [map_fresh_mapping_self h1 hl0, init_none_mapping, hA]
    rfl
  have hm_sc : (((NameMapper.init none none).map .database name).1).mapping .schema
      = [] := by
    rw [map_fresh_mapping_ne h1 hl0 (by decide), init_none_mapping]
  have hm_tb : (((NameMapper.init none none).map .database name).1).mapping .table
      = [] := by
    rw [map_fresh_mapping_ne h1 hl0 (by decide), init_none_mapping]
  have hm_co : (((NameMapper.init none none).map .database name).1).mapping .column
      = [] := by
    rw [map_fresh_mapping_ne h1 hl0 (by decide), init_none_mapping]
  have hi_db : (((NameMapper.init none none).map .database name).1).inverse .database
      = [("DB_1".data, name)] := by
    rw [map_fresh_inverse_self h1 hl0, init_none_inverse, hA]
    rfl
  have hi_sc : (((NameMapper.init none none).map .database name).1).inverse .schema
      = [] := by
    rw [map_fresh_inverse_ne h1 hl0 (by decide), init_none_inverse]
  have hi_tb : (((NameMapper.init none none).map .database name).1).inverse .table
      = [] := by
    rw [map_fresh_inverse_ne h1 hl0 (by decide), init_none_inverse]
  have hi_co : (((NameMapper.init none none).map .database name).1).inverse .column
      = [] := by
    rw [map_fresh_inverse_ne h1 hl0 (by decide), init_none_inverse]
  have hstrip : _strip_use_for_parse ('U' :: 'S' :: 'E' :: ' ' :: name) = [] := by
    unfold _strip_use_for_parse
    rw [stripGo_succ_none hfp]
    unfold useSub
    rw [useSubGo_succ_match hmu, useSubGo_nil]
  have hext : _extract_mapping parse ('U' :: 'S' :: 'E' :: ' ' :: name)
      (NameMapper.init none none)
      = ((NameMapper.init none none).map .database name).1 := by
    unfold _extract_mapping
    rw [hstrip, hp]
    exact hmap
  have hfwd : _build_replacements_forward
      (((NameMapper.init none none).map .database name).1)
      = [Rule.bracket true name "DB_1".data, Rule.bare true name "DB_1".data] := by
    unfold _build_replacements_forward
    rw [hm_db, hm_sc, hm_tb, hm_co]
    rfl
  have hlenfuel : ('U' :: 'S' :: 'E' :: ' ' :: name).length + 1 = name.length + 5 := by
    simp only [List.length_cons]
  have happly : _apply_replacements_to_code_and_comments
      ('U' :: 'S' :: 'E' :: ' ' :: name)
      [Rule.bracket true name "DB_1".data, Rule.bare true name "DB_1".data]
      = 'U' :: 'S' :: 'E' :: ' ' :: "DB_1".data := by
    unfold _apply_replacements_to_code_and_comments
    rw [applyRepGo_succ_none _ hfp]
    show applyRule (applyRule ('U' :: 'S' :: 'E' :: ' ' :: name)
      (Rule.bracket true name "DB_1".data)) (Rule.bare true name "DB_1".data) = _
    have e1 : applyRule ('U' :: 'S' :: 'E' :: ' ' :: name)
        (Rule.bracket true name "DB_1".data) = 'U' :: 'S' :: 'E' :: ' ' :: name := by
      show subBracket (chCmp true) name "DB_1".data ('U' :: 'S' :: 'E' :: ' ' :: name)
        = _
      unfold subBracket
      exact bracketGo_id_of_no_lbrack _ _ hlb
    rw [e1]
    show subBare (chCmp true) name "DB_1".data ('U' :: 'S' :: 'E' :: ' ' :: name) = _
    unfold subBare
    rw [if_neg h1, hlenfuel]
    exact bareGo_use name.length h1 h2 h3
  have hanon1 : (anonymize_sql parse ('U' :: 'S' :: 'E' :: ' ' :: name)
      (NameMapper.init none none)).1 = 'U' :: 'S' :: 'E' :: ' ' :: "DB_1".data := by
    show _apply_replacements_to_code_and_comments ('U' :: 'S' :: 'E' :: ' ' :: name)
      (_build_replacements_forward (_extract_mapping parse
        ('U' :: 'S' :: 'E' :: ' ' :: name) (NameMapper.init none none))) = _
    rw [hext, hfwd, happly]
  have hanon2 : (anonymize_sql parse ('U' :: 'S' :: 'E' :: ' ' :: name)
      (NameMapper.init none none)).2
      = ((NameMapper.init none none).map .database name).1 := hext
  rw [hanon1, hanon2]
  have hrev : _build_replacements_reverse
      (((NameMapper.init none none).map .database name).1)
      = [Rule.bracket false "DB_1".data name, Rule.bare false "DB_1".data name] := by
    unfold _build_replacements_reverse
    rw [hi_db, hi_sc, hi_tb, hi_co]
    rfl
  unfold deanonymize_sql
  rw [hrev]
  unfold _apply_replacements_to_code_and_comments
  rw [applyRepGo_succ_none _
    (by decide : findProtected ('U' :: 'S' :: 'E' :: ' ' :: "DB_1".data) = none)]
  show applyRule (applyRule ('U' :: 'S' :: 'E' :: ' ' :: "DB_1".data)
    (Rule.bracket false "DB_1".data name)) (Rule.bare false "DB_1".data name) = _
  have e1 : applyRule ('U' :: 'S' :: 'E' :: ' ' :: "DB_1".data)
      (Rule.bracket false "DB_1".data name)
      = 'U' :: 'S' :: 'E' :: ' ' :: "DB_1".data := by
    show subBracket (chCmp false) "DB_1".data name
      ('U' :: 'S' :: 'E' :: ' ' :: "DB_1".data) = _
    unfold subBracket
    exact bracketGo_id_of_no_lbrack _ _ (by decide)
  rw [e1]
  have e2 : applyRule ('U' :: 'S' :: 'E' :: ' ' :: "DB_1".data)
      (Rule.bare false "DB_1".data name)
      = 'U' :: 'S' :: 'E' :: ' ' :: (name ++ []) := rfl
  rw [e2]
  simp

/-- Witness for C1's amended round-trip at `name = AdventureWorks2019`. -/
theorem C1_roundtrip_single_case_witness :
    deanonymize_sql
        (anonymize_sql (fun _ => none) ("USE ".data ++ "AdventureWorks2019".data)
          (NameMapper.init none none)).1
        (anonymize_sql (fun _ => none) ("USE ".data ++ "AdventureWorks2019".data)
          (NameMapper.init none none)).2
      = "USE ".data ++ "AdventureWorks2019".data :=
  C1_roundtrip_single_case (fun _ => none) "AdventureWorks2019".data (by decide)
    (by decide) (by decide) rfl
